import Mathlib

/-!
Verification of the boxo repository core (path package and the bitswap
want/decision subsystem) against its natural-language specification.

Part 1 embeds the `path` package (`NewPath`, `Join`, `Segments`, the path
constructors and Go's `path.Clean`) at the level of character lists, with
the external CID and peer-ID codecs abstracted into a `CidModel` parameter.

Part 2 models the bitswap wantlist, peer ledger, decision-engine task queue,
round-robin scheduling and cross-session want deduplication.  The Go code of
those components is not part of this tree (only their type aliases are), so
the definitions there are modelled from the specification text.
-/

/-! ### Go `path.Clean`, embedded on `List Char`

`gopath.Clean` is the lazybuf algorithm from Go's standard `path` package:
it walks the input left to right keeping an output buffer `out`, a write
index (here: the length of `out`) and the index `dotdot` below which ".."
elements may not pop. -/

/-- The inner copy loop of `Clean`'s default case: take characters of the
current element up to (but excluding) the next slash; also return the rest. -/
def takeSeg : List Char → List Char × List Char
  | [] => ([], [])
  | c :: cs =>
    if c = '/' then ([], c :: cs)
    else ((c :: (takeSeg cs).1), (takeSeg cs).2)

/-- The `..` pop loop of `Clean`, acting on the reversed output buffer:
remove the last character unconditionally, then keep removing while the
buffer is longer than `dotdot` and the removed character is not a slash. -/
def cleanPopRev (dotdot : Nat) : List Char → List Char
  | [] => []
  | c :: rl => if dotdot < rl.length ∧ c ≠ '/' then cleanPopRev dotdot rl else rl

/-- `Clean`'s `..` pop: drop the final element of the output buffer together
with the slash that introduced it (stopping at index `dotdot`). -/
def cleanPop (dotdot : Nat) (l : List Char) : List Char :=
  (cleanPopRev dotdot l.reverse).reverse

/-- Main loop of Go `path.Clean`.  `rooted` is whether the input began with a
slash; `dotdot` and `out` are the loop state; the final argument is the
unread input. -/
def cleanLoop (rooted : Bool) : Nat → List Char → List Char → List Char
  | _, out, [] => out
  | dotdot, out, c :: cs =>
    if c = '/' then
      cleanLoop rooted dotdot out cs
    else if c = '.' ∧ (cs = [] ∨ cs.headD ' ' = '/') then
      cleanLoop rooted dotdot out cs
    else if c = '.' ∧ cs.headD ' ' = '.' ∧ (cs.tail = [] ∨ cs.tail.headD ' ' = '/') then
      (if dotdot < out.length then
        cleanLoop rooted dotdot (cleanPop dotdot out) cs.tail
      else if rooted = false then
        let out1 := if 0 < out.length then out ++ ['/'] else out
        cleanLoop rooted (out1.length + 2) (out1 ++ ['.', '.']) cs.tail
      else
        cleanLoop rooted dotdot out cs.tail)
    else
      let seg := takeSeg (c :: cs)
      let sep : List Char :=
        if (rooted = true ∧ out.length ≠ 1) ∨ (rooted = false ∧ out.length ≠ 0) then ['/'] else []
      cleanLoop rooted dotdot (out ++ sep ++ seg.1) seg.2
termination_by _ _ l => l.length
decreasing_by
  all_goals simp_wf
  all_goals try omega
  · rename_i hslash _ _
    simp only [takeSeg, if_neg hslash]
    have hlen : ∀ l : List Char, (takeSeg l).2.length ≤ l.length := by
      intro l
      induction l with
      | nil => simp [takeSeg]
      | cons d ds ih =>
        simp only [takeSeg]
        split
        · simp
        · simpa using Nat.le_succ_of_le ih
    have := hlen cs
    omega

/-- Go `path.Clean` on a character list: empty input cleans to ".", a rooted
input starts the buffer with a slash, and an empty result is ".". -/
def cleanChars (cs : List Char) : List Char :=
  if cs = [] then ['.']
  else
    let r :=
      if cs.headD ' ' = '/' then cleanLoop true 1 ['/'] cs.tail
      else cleanLoop false 0 [] cs
    if r = [] then ['.'] else r

/-- Go `strings.Split(s, "/")` on a character list. -/
def splitSlashList : List Char → List (List Char)
  | [] => [[]]
  | c :: cs =>
    if c = '/' then [] :: splitSlashList cs
    else
      match splitSlashList cs with
      | [] => [[c]]
      | s :: rest => (c :: s) :: rest

/-- Join segments with slashes (inverse of `splitSlashList` on slash-free
segments); mirrors `strings.Join(_, "/")` at the character level. -/
def joinSegs : List (List Char) → List Char
  | [] => []
  | [s] => s
  | s :: rest => s ++ '/' :: joinSegs rest

/-- `strings.Join(segments, "/")` for a list of strings, as characters. -/
def strJoinSlash : List String → List Char
  | [] => []
  | [s] => s.data
  | s :: rest => s.data ++ '/' :: strJoinSlash rest

/-- Go `strings.TrimSuffix(s, "/")` at the character level. -/
def trimOneSuffixSlash (l : List Char) : List Char :=
  if l.getLastD ' ' = '/' then l.dropLast else l

/-- Go `strings.TrimPrefix(s, "/")` at the character level. -/
def trimOnePrefixSlash (l : List Char) : List Char :=
  if l.headD ' ' = '/' then l.tail else l

/-! ### The `path` package data model -/

/-- Model of `cid.Cid` (external go-cid collaborator): a codec tag plus the
underlying representation, with structural equality. -/
structure Cid where
  codec : Nat
  raw : String
deriving DecidableEq

/-- `cid.Undef`. -/
def cidUndef : Cid := ⟨0, ""⟩

/-- `cid.Libp2pKey` multicodec (0x72). -/
def libp2pKeyCodec : Nat := 114

/-- Model of `peer.ID` (external libp2p collaborator). -/
abbrev PeerID := String

/-- Abstraction of the external CID / peer-ID codec collaborators used by the
`path` package: `cid.Decode`, `cid.String`, `peer.Decode`, `peer.ToCid`. -/
structure CidModel where
  decode : String → Option Cid
  cidStr : Cid → String
  peerDecode : String → Option PeerID
  peerToCid : PeerID → Cid

def IPFSNamespace : String := "ipfs"

def IPNSNamespace : String := "ipns"

def IPLDNamespace : String := "ipld"

/-- The `path` struct: `str`, `root`, `namespace` (the latter renamed
`nspace` because `namespace` is a Lean keyword). -/
structure GoPath where
  str : String
  root : Cid
  nspace : String
deriving DecidableEq

/-- `(*path).Namespace`. -/
def GoPath.Namespace (p : GoPath) : String := p.nspace

/-- `(*path).Mutable`: true exactly when the namespace is "ipns". -/
def GoPath.Mutable (p : GoPath) : Bool := p.nspace == IPNSNamespace

/-- `(*path).Root`. -/
def GoPath.Root (p : GoPath) : Cid := p.root

/-- `(*path).Segments`: trim one trailing and one leading slash, then split
on "/". -/
def GoPath.Segments (p : GoPath) : List String :=
  (splitSlashList (trimOnePrefixSlash (trimOneSuffixSlash p.str.data))).map
    (fun cs => (⟨cs⟩ : String))

/-- The `resolvedPath` struct (a `path` plus resolved cid and remainder). -/
structure ResolvedGoPath where
  toGoPath : GoPath
  cid : Cid
  remainder : String
deriving DecidableEq

/-- `fmt.Sprintf("/%s/%s", a, b)`. -/
def slashPair (a b : String) : String := ⟨'/' :: a.data ++ '/' :: b.data⟩

/-- `NewIPFSPath`. -/
def NewIPFSPath (M : CidModel) (c : Cid) : ResolvedGoPath :=
  ⟨⟨slashPair IPFSNamespace (M.cidStr c), c, IPFSNamespace⟩, c, ""⟩

/-- `NewIPLDPath`. -/
def NewIPLDPath (M : CidModel) (c : Cid) : ResolvedGoPath :=
  ⟨⟨slashPair IPLDNamespace (M.cidStr c), c, IPLDNamespace⟩, c, ""⟩

/-- `NewIPNSPath`. -/
def NewIPNSPath (M : CidModel) (c : Cid) : GoPath :=
  ⟨slashPair IPNSNamespace (M.cidStr c), c, IPNSNamespace⟩

/-- `NewDNSLinkPath`. -/
def NewDNSLinkPath (domain : String) : GoPath :=
  ⟨slashPair IPNSNamespace domain, cidUndef, IPNSNamespace⟩

/-- Error kinds of `ErrInvalidPath`, one constructor per distinct message
produced in `NewPath` (`notEnoughComponents` carries the message
"not enough path components"). -/
inductive PathErrKind where
  | notEnoughComponents
  | invalidCidRoot
  | invalidCid
  | unknownNamespace (ns : String)
deriving DecidableEq

/-- The error message text corresponding to each `ErrInvalidPath` kind. -/
def PathErrKind.message : PathErrKind → String
  | .notEnoughComponents => "not enough path components"
  | .invalidCidRoot => "invalid cid"
  | .invalidCid => "invalid CID"
  | .unknownNamespace ns => "unknown namespace " ++ ns

/-- `ErrInvalidPath`: an error kind together with the offending path. -/
structure ErrInvalidPath where
  kind : PathErrKind
  path : String
deriving DecidableEq

/-- Branch structure of `NewPath` after cleaning and splitting (`comps` are
the components of the cleaned string, `cleaned` the cleaned string with the
original trailing slash restored): a single component is tried as a CID
(Libp2pKey ⇒ /ipns path, otherwise /ipfs path); a non-empty first component
must be a CID root (namespace "ipfs"); otherwise at least three components
are required and the second must be a known namespace.  Note the source
gives the "ipns" switch arm the `IPFSNamespace` namespace. -/
def newPathAux (M : CidModel) (s : String) (comps : List String) (cleaned : String) :
    Except ErrInvalidPath GoPath :=
  match (if comps.length = 1 then M.decode (comps.headD "") else none) with
  | some c =>
    if c.codec = libp2pKeyCodec then .ok (NewIPNSPath M c)
    else .ok (NewIPFSPath M c).toGoPath
  | none =>
    if comps.headD "" ≠ "" then
      match M.decode (comps.headD "") with
      | some root => .ok ⟨cleaned, root, IPFSNamespace⟩
      | none => .error ⟨.invalidCidRoot, s⟩
    else if comps.length < 3 then
      .error ⟨.notEnoughComponents, s⟩
    else if comps.getD 1 "" = IPFSNamespace ∨ comps.getD 1 "" = IPLDNamespace then
      if comps.getD 2 "" = "" then .error ⟨.notEnoughComponents, s⟩
      else
        match M.decode (comps.getD 2 "") with
        | some root => .ok ⟨cleaned, root, comps.getD 1 ""⟩
        | none => .error ⟨.invalidCid, s⟩
    else if comps.getD 1 "" = IPNSNamespace then
      if comps.getD 2 "" = "" then .error ⟨.notEnoughComponents, s⟩
      else
        let root :=
          match M.peerDecode (comps.getD 2 "") with
          | none => cidUndef
          | some pid => M.peerToCid pid
        .ok ⟨cleaned, root, IPFSNamespace⟩
    else
      .error ⟨.unknownNamespace (comps.getD 1 ""), s⟩

/-- `NewPath`: clean the input, split it into components (before re-adding a
trailing slash), then branch as in `newPathAux`. -/
def NewPath (M : CidModel) (s : String) : Except ErrInvalidPath GoPath :=
  let cl := cleanChars s.data
  let comps : List String := (splitSlashList cl).map (fun l => (⟨l⟩ : String))
  let cleaned : String := if s.data.getLastD ' ' = '/' then ⟨cl ++ ['/']⟩ else ⟨cl⟩
  newPathAux M s comps cleaned

/-- `NewPathFromSegments`: drop a leading empty segment (when there are at
least two), then parse "/" + the slash-joined segments. -/
def NewPathFromSegments (M : CidModel) (segments : List String) :
    Except ErrInvalidPath GoPath :=
  let segments :=
    if 1 < segments.length ∧ segments.headD "" = "" then segments.tail else segments
  NewPath M ⟨'/' :: strJoinSlash segments⟩

/-- `Join`: append the extra segments to the path's segments and rebuild. -/
def Join (M : CidModel) (p : GoPath) (segments : List String) :
    Except ErrInvalidPath GoPath :=
  NewPathFromSegments M (p.Segments ++ segments)

/-! ### Segment predicates used by the lemmas -/

/-- A "good" path element: non-empty, slash-free, and not one of the special
elements "." and "..".  `Clean` leaves exactly such elements in its output. -/
def goodSeg (g : List Char) : Prop :=
  g ≠ [] ∧ '/' ∉ g ∧ g ≠ ['.'] ∧ g ≠ ['.', '.']

instance (g : List Char) : Decidable (goodSeg g) := by
  unfold goodSeg; infer_instance

/-- Slash-prefixed flattening of a segment list: "/a/b" style continuation. -/
def glue (gs : List (List Char)) : List Char :=
  (gs.map (fun g => '/' :: g)).flatten

/-- Invariant of `cleanLoop`'s output buffer in rooted mode: a bare slash, or
a slash followed by good slash-joined elements. -/
def rootedClean (l : List Char) : Prop :=
  l = ['/'] ∨ ∃ segs, segs ≠ [] ∧ (∀ g ∈ segs, goodSeg g) ∧ l = '/' :: joinSegs segs

deriving instance DecidableEq for Except

/-- A small concrete codec model used to evaluate the path functions on
concrete inputs: "QmA" decodes as a DagPB CID, "QkK" as a Libp2pKey CID,
"QmPeer" as a peer ID. -/
def M0 : CidModel where
  decode := fun str =>
    if str = "QmA" then some ⟨112, "QmA"⟩
    else if str = "QkK" then some ⟨114, "QkK"⟩
    else none
  cidStr := fun c => c.raw
  peerDecode := fun str => if str = "QmPeer" then some "QmPeer" else none
  peerToCid := fun pid => ⟨114, pid⟩

/-- Data shared between a rooted accepted parse and its re-parse: which
namespace arm applied and how root and namespace were computed. -/
def reparseData (M : CidModel) (p : GoPath) (segs : List (List Char)) : Prop :=
  (((⟨segs.getD 0 []⟩ : String) = IPFSNamespace ∨ (⟨segs.getD 0 []⟩ : String) = IPLDNamespace) ∧
    p.nspace = (⟨segs.getD 0 []⟩ : String) ∧ M.decode ⟨segs.getD 1 []⟩ = some p.root) ∨
  ((⟨segs.getD 0 []⟩ : String) = IPNSNamespace ∧ p.nspace = IPFSNamespace ∧
    p.root = (match M.peerDecode (⟨segs.getD 1 []⟩ : String) with
      | none => cidUndef
      | some pid => M.peerToCid pid))

/-! ### Part 2: bitswap want/decision subsystem

The Go sources of the decision engine, score ledger, wantlist and session
manager are not part of this tree (only type aliases such as
`Receipt = decision.Receipt` appear), so the definitions below are
modelled from the specification text. -/

/-- Modelled from the spec: ContentID, an opaque content-derived identifier
with structural equality. -/
abbrev ContentID := Nat

/-- Modelled from the spec: WantType ∈ {WantBlock, WantHave}. -/
inductive WantType where
  | wantBlock
  | wantHave
deriving DecidableEq

/-- Modelled from the spec: WantEntry = {ContentID, Priority, WantType,
Cancel, SendDontHave}. -/
structure WantEntry where
  cid : ContentID
  priority : Int
  wantType : WantType
  cancel : Bool
  sendDontHave : Bool
deriving DecidableEq

/-- Modelled from the spec: the data a Wantlist keeps per ContentID. -/
structure WLRecord where
  priority : Int
  wantType : WantType
deriving DecidableEq

/-- Modelled from the spec: a Wantlist maps ContentIDs to entries; here an
association list whose operations keep keys unique. -/
abbrev Wantlist := List (ContentID × WLRecord)

/-- Modelled from the spec: re-adding the same ContentID with Cancel=false
updates Priority/WantType in place. -/
def wlUpsert (cid : ContentID) (r : WLRecord) : Wantlist → Wantlist
  | [] => [(cid, r)]
  | kv :: rest => if kv.1 = cid then (cid, r) :: rest else kv :: wlUpsert cid r rest

/-- Modelled from the spec: adding with Cancel=true removes the ContentID. -/
def wlRemove (cid : ContentID) (w : Wantlist) : Wantlist :=
  w.filter (fun kv => kv.1 != cid)

def wlLookup (cid : ContentID) (w : Wantlist) : Option WLRecord :=
  (w.find? (fun kv => kv.1 == cid)).map (fun kv => kv.2)

/-- Modelled from the spec: the want merge of one WantEntry into a
Wantlist (idempotent upsert; cancel removes). -/
def wantlistMerge (w : Wantlist) (e : WantEntry) : Wantlist :=
  if e.cancel then wlRemove e.cid w
  else wlUpsert e.cid ⟨e.priority, e.wantType⟩ w

/-- Modelled from the spec: PeerLedger entry counters (PeerID is the key). -/
structure LedgerEntry where
  bytesSent : Nat
  bytesReceived : Nat
  blocksSent : Nat
  blocksReceived : Nat
deriving DecidableEq

/-- Modelled from the spec: the Peer Ledger, one entry per known peer. -/
abbrev PeerLedger := List (PeerID × LedgerEntry)

/-- Modelled from the spec: Receipt = {PeerID, BlocksSent, BytesSent,
BlocksReceived, BytesReceived, Timestamp}, immutable once emitted. -/
structure Receipt where
  peer : PeerID
  blocksSent : Nat
  bytesSent : Nat
  blocksReceived : Nat
  bytesReceived : Nat
  timestamp : Nat
deriving DecidableEq

def ledgerLookup (L : PeerLedger) (p : PeerID) : Option LedgerEntry :=
  (L.find? (fun kv => kv.1 == p)).map (fun kv => kv.2)

/-- Modelled from the spec: the ε of the debt-ratio denominator. -/
def debtEpsilon : ℚ := 1

/-- Modelled from the spec: the neutral default ratio for peers with no
recorded history (0 bytes sent over 0 + ε received). -/
def neutralDebtRatio : ℚ := 0

/-- Modelled from the spec: DebtRatio(peer) = BytesSent/(BytesReceived+ε);
total (never fails), neutral default for unknown peers. -/
def debtRatioOf (L : PeerLedger) (p : PeerID) : ℚ :=
  match ledgerLookup L p with
  | some e => (e.bytesSent : ℚ) / ((e.bytesReceived : ℚ) + debtEpsilon)
  | none => neutralDebtRatio

def emptyLedgerEntry : LedgerEntry := ⟨0, 0, 0, 0⟩

/-- Modelled from the spec: add a receipt's counters onto an entry. -/
def addReceipt (e : LedgerEntry) (r : Receipt) : LedgerEntry :=
  ⟨e.bytesSent + r.bytesSent, e.bytesReceived + r.bytesReceived,
    e.blocksSent + r.blocksSent, e.blocksReceived + r.blocksReceived⟩

/-- Modelled from the spec: RecordReceipt updates the peer's counters,
creating the entry on first interaction; total, never errors. -/
def recordReceipt : PeerLedger → Receipt → PeerLedger
  | [], r => [(r.peer, addReceipt emptyLedgerEntry r)]
  | kv :: rest, r =>
    if kv.1 = r.peer then (kv.1, addReceipt kv.2 r) :: rest
    else kv :: recordReceipt rest r

/-- BytesSent currently recorded for a peer (0 when absent). -/
def sentAt (L : PeerLedger) (p : PeerID) : Nat :=
  match ledgerLookup L p with
  | some e => e.bytesSent
  | none => 0

/-- BytesReceived currently recorded for a peer (0 when absent). -/
def recvAt (L : PeerLedger) (p : PeerID) : Nat :=
  match ledgerLookup L p with
  | some e => e.bytesReceived
  | none => 0

/-! ### Decision Engine task queue (C3, C5) -/

/-- Modelled from the spec: Task = {PeerID, ContentID, Size, WantType}
together with the entry priority it was scheduled with. -/
structure EngineTask where
  peer : PeerID
  cid : ContentID
  size : Nat
  wantType : WantType
  priority : Int
deriving DecidableEq

/-- Modelled from the spec: Decision Engine state: one Wantlist per peer
plus the active task queue. -/
structure EngineState where
  wantlists : List (PeerID × Wantlist)
  queue : List EngineTask
deriving DecidableEq

/-- Modelled from the spec: ReceiveWants enqueues a Task for content the
local storage has. -/
def receiveWantTask (st : EngineState) (t : EngineTask) : EngineState :=
  { st with queue := st.queue ++ [t] }

/-- Modelled from the spec: ReceiveCancel removes the matching WantEntries
and Tasks of that peer. -/
def receiveCancel (st : EngineState) (p : PeerID) (xs : List ContentID) : EngineState :=
  { wantlists := st.wantlists.map (fun kv =>
      if kv.1 = p then (kv.1, kv.2.filter (fun e => !(xs.contains e.1))) else kv)
    queue := st.queue.filter (fun t => !(t.peer == p && xs.contains t.cid)) }

def wantTypeRank : WantType → Nat
  | .wantHave => 0
  | .wantBlock => 1

/-- Modelled from the spec: candidate task order: WantHave entries ahead of
WantBlock, then entry priority descending, then the configured
TaskComparator policy. -/
def taskBefore (cmp : EngineTask → EngineTask → Bool) (a b : EngineTask) : Bool :=
  if wantTypeRank a.wantType < wantTypeRank b.wantType then true
  else if wantTypeRank b.wantType < wantTypeRank a.wantType then false
  else if b.priority < a.priority then true
  else if a.priority < b.priority then false
  else cmp a b

def insertBy (r : EngineTask → EngineTask → Bool) (x : EngineTask) :
    List EngineTask → List EngineTask
  | [] => [x]
  | y :: ys => if r x y then x :: y :: ys else y :: insertBy r x ys

def sortTasks (r : EngineTask → EngineTask → Bool) : List EngineTask → List EngineTask
  | [] => []
  | x :: xs => insertBy r x (sortTasks r xs)

/-- Modelled from the spec: selection stops at the first task whose size
would push the cumulative total over the budget. -/
def selectWithin (budget : Nat) : Nat → List EngineTask → List EngineTask
  | _, [] => []
  | used, t :: ts =>
    if budget < used + t.size then [] else t :: selectWithin budget (used + t.size) ts

def pendingFor (st : EngineState) (p : PeerID) : List EngineTask :=
  st.queue.filter (fun t => t.peer == p)

/-- Modelled from the spec: NextTasks(peer, budget): sort that peer's
pending tasks by the candidate order, then take the affordable prefix. -/
def nextTasks (cmp : EngineTask → EngineTask → Bool) (st : EngineState) (p : PeerID)
    (budget : Nat) : List EngineTask :=
  selectWithin budget 0 (sortTasks (taskBefore cmp) (pendingFor st p))

def sizeSum (l : List EngineTask) : Nat := (l.map (fun t => t.size)).sum

/-- Modelled from the spec: scheduler state for two peers A and B with equal
entry priorities and zero debt and continuously pending tasks: how many tasks
each peer has been served, the logical time of each peer's most recent
service, and the scheduler clock. -/
structure RRState where
  servedA : Nat
  servedB : Nat
  lastA : Nat
  lastB : Nat
  clock : Nat
deriving DecidableEq

/-- Modelled from the spec: one budget-limited NextTasks call serves the peer
that was served least recently (with equal priorities and zero debt the
comparator gives no preference, so the engine alternates; ties go to A). -/
def rrStep (s : RRState) : RRState :=
  if s.lastA ≤ s.lastB then
    ⟨s.servedA + 1, s.servedB, s.clock, s.lastB, s.clock + 1⟩
  else
    ⟨s.servedA, s.servedB + 1, s.lastA, s.clock, s.clock + 1⟩

/-- Modelled from the spec: initial scheduler state, neither peer served yet. -/
def rrInit : RRState := ⟨0, 0, 0, 0, 1⟩

/-- Modelled from the spec: the state after N successive budget-limited
NextTasks calls. -/
def rrRun : Nat → RRState
  | 0 => rrInit
  | n + 1 => rrStep (rrRun n)

def rrInv (s : RRState) : Prop :=
  (s.servedA = s.servedB ∧ s.lastA ≤ s.lastB ∧ s.lastB < s.clock) ∨
  (s.servedA = s.servedB + 1 ∧ s.lastB < s.lastA ∧ s.lastA < s.clock)

/-- Modelled from the spec: session identifiers. -/
abbrev SessionID := Nat

/-- Modelled from the spec: wire-level bitswap messages toward candidate
peers: a WantBlock request or a Cancel for a ContentID. -/
inductive WireMsg where
  | wantBlockMsg (c : ContentID) (p : PeerID)
  | cancelMsg (c : ContentID) (p : PeerID)
deriving DecidableEq

/-- Modelled from the spec: the peer-request layer state: for each ContentID the
list of sessions still interested in it, the set of (ContentID, peer) pairs
with an outstanding WantBlock, and the log of messages sent on the wire. -/
structure DedupState where
  sessions : List (ContentID × List SessionID)
  active : List (ContentID × PeerID)
  wire : List WireMsg
deriving DecidableEq

/-- Modelled from the spec: look up the sessions interested in a ContentID. -/
def assocSessions : List (ContentID × List SessionID) → ContentID → List SessionID
  | [], _ => []
  | (c, l) :: rest, c0 => if c0 = c then l else assocSessions rest c0

/-- Modelled from the spec: update the interest list of a ContentID. -/
def setSessions : List (ContentID × List SessionID) → ContentID → List SessionID →
    List (ContentID × List SessionID)
  | [], c0, l0 => [(c0, l0)]
  | (c, l) :: rest, c0, l0 =>
    if c0 = c then (c0, l0) :: rest else (c, l) :: setSessions rest c0 l0

/-- Modelled from the spec: operations issued by sessions: a session starts
wanting a ContentID from a candidate peer, or drops its interest. -/
inductive DedupOp where
  | want (s : SessionID) (c : ContentID) (p : PeerID)
  | dropWant (s : SessionID) (c : ContentID)
deriving DecidableEq

/-- Modelled from the spec: record a session's interest in a ContentID (no
duplicate session entries). -/
def wantSessions (st : DedupState) (s : SessionID) (c : ContentID) :
    List (ContentID × List SessionID) :=
  if s ∈ assocSessions st.sessions c then st.sessions
  else setSessions st.sessions c (s :: assocSessions st.sessions c)

/-- Modelled from the spec: a session starts wanting a ContentID from a
candidate peer: its interest is recorded, and a WantBlock goes on the wire
only if no WantBlock for that (ContentID, peer) pair is already outstanding
(deduplication at the peer-request layer). -/
def stepWant (st : DedupState) (s : SessionID) (c : ContentID) (p : PeerID) :
    DedupState :=
  if (c, p) ∈ st.active then
    ⟨wantSessions st s c, st.active, st.wire⟩
  else
    ⟨wantSessions st s c, (c, p) :: st.active,
     st.wire ++ [WireMsg.wantBlockMsg c p]⟩

/-- Modelled from the spec: a session drops its interest in a ContentID: it is
removed from the interest list, and only when it was the last interested
session are Cancels sent on the wire for every outstanding WantBlock on that
ContentID (cross-session reference counting). -/
def stepDrop (st : DedupState) (s : SessionID) (c : ContentID) : DedupState :=
  if (assocSessions st.sessions c).erase s = [] then
    ⟨setSessions st.sessions c ((assocSessions st.sessions c).erase s),
     st.active.filter (fun q => !(q.1 == c)),
     st.wire ++ (st.active.filter (fun q => q.1 == c)).map
       (fun q => WireMsg.cancelMsg q.1 q.2)⟩
  else
    ⟨setSessions st.sessions c ((assocSessions st.sessions c).erase s),
     st.active, st.wire⟩

/-- Modelled from the spec: one step of the peer-request layer. -/
def dedupStep (st : DedupState) : DedupOp → DedupState
  | .want s c p => stepWant st s c p
  | .dropWant s c => stepDrop st s c

/-- Modelled from the spec: initial state: no sessions, nothing outstanding,
nothing sent. -/
def dedupInit : DedupState := ⟨[], [], []⟩

/-- Modelled from the spec: the state reached after a sequence of session
operations. -/
def dedupRun (ops : List DedupOp) : DedupState := ops.foldl dedupStep dedupInit

/-- Modelled from the spec: number of WantBlock messages for (c, p) sent so
far. -/
def countWB (w : List WireMsg) (c : ContentID) (p : PeerID) : Nat :=
  w.count (WireMsg.wantBlockMsg c p)

/-- Modelled from the spec: number of Cancel messages for (c, p) sent so
far. -/
def countCancel (w : List WireMsg) (c : ContentID) (p : PeerID) : Nat :=
  w.count (WireMsg.cancelMsg c p)

def DedupInv (st : DedupState) : Prop :=
  st.active.Nodup ∧
  (∀ c p, countWB st.wire c p =
      countCancel st.wire c p + (if (c, p) ∈ st.active then 1 else 0)) ∧
  (∀ c p, (c, p) ∈ st.active → assocSessions st.sessions c ≠ [])

/-! ### Theorems -/

theorem takeSeg_snd_length : ∀ l : List Char, (takeSeg l).2.length ≤ l.length := by
  intro l
  induction l with
  | nil => simp [takeSeg]
  | cons c cs ih =>
    simp only [takeSeg]
    split
    · simp
    · simpa using Nat.le_succ_of_le ih

/-! ### Basic lemmas: `takeSeg`, `splitSlashList`, `joinSegs` -/

theorem takeSeg_no_slash : ∀ l : List Char, '/' ∉ l → takeSeg l = (l, []) := by
  intro l
  induction l with
  | nil => intro _; rfl
  | cons c cs ih =>
    intro h
    have hc : c ≠ '/' := fun hc => h (hc ▸ List.mem_cons_self c cs)
    have hcs : '/' ∉ cs := fun hm => h (List.mem_cons_of_mem c hm)
    simp only [takeSeg, if_neg hc, ih hcs]

theorem takeSeg_append : ∀ g r : List Char, '/' ∉ g →
    takeSeg (g ++ '/' :: r) = (g, '/' :: r) := by
  intro g
  induction g with
  | nil => intro r _; simp [takeSeg]
  | cons c cs ih =>
    intro r h
    have hc : c ≠ '/' := fun hc => h (hc ▸ List.mem_cons_self c cs)
    have hcs : '/' ∉ cs := fun hm => h (List.mem_cons_of_mem c hm)
    simp [takeSeg, hc, ih r hcs]

theorem takeSeg_fst_no_slash : ∀ l : List Char, '/' ∉ (takeSeg l).1 := by
  intro l
  induction l with
  | nil => simp [takeSeg]
  | cons c cs ih =>
    by_cases hc : c = '/'
    · simp [takeSeg, hc]
    · simp only [takeSeg, if_neg hc]
      intro hmem
      rcases List.mem_cons.mp hmem with h | h
      · exact hc h.symm
      · exact ih h

theorem splitSlashList_ne_nil : ∀ l : List Char, splitSlashList l ≠ [] := by
  intro l
  induction l with
  | nil => simp [splitSlashList]
  | cons c cs ih =>
    by_cases hc : c = '/'
    · simp [splitSlashList, hc]
    · simp only [splitSlashList, if_neg hc]
      cases h : splitSlashList cs with
      | nil => simp
      | cons s rest => simp

theorem splitSlashList_no_slash : ∀ l : List Char, '/' ∉ l → splitSlashList l = [l] := by
  intro l
  induction l with
  | nil => intro _; rfl
  | cons c cs ih =>
    intro h
    have hc : c ≠ '/' := fun hc => h (hc ▸ List.mem_cons_self c cs)
    have hcs : '/' ∉ cs := fun hm => h (List.mem_cons_of_mem c hm)
    simp only [splitSlashList, if_neg hc, ih hcs]

theorem splitSlashList_append : ∀ g r : List Char, '/' ∉ g →
    splitSlashList (g ++ '/' :: r) = g :: splitSlashList r := by
  intro g
  induction g with
  | nil => intro r _; simp [splitSlashList]
  | cons c cs ih =>
    intro r h
    have hc : c ≠ '/' := fun hc => h (hc ▸ List.mem_cons_self c cs)
    have hcs : '/' ∉ cs := fun hm => h (List.mem_cons_of_mem c hm)
    rw [List.cons_append]
    simp only [splitSlashList, if_neg hc]
    rw [ih r hcs]

theorem joinSegs_cons_cons (g h : List Char) (t : List (List Char)) :
    joinSegs (g :: h :: t) = g ++ '/' :: joinSegs (h :: t) := rfl

theorem joinSegs_eq_glue : ∀ (g : List Char) (gs : List (List Char)),
    joinSegs (g :: gs) = g ++ glue gs := by
  intro g gs
  induction gs generalizing g with
  | nil => simp [joinSegs, glue]
  | cons h t ih =>
    rw [joinSegs_cons_cons, ih h]
    simp [glue]

theorem splitSlashList_joinSegs : ∀ segs : List (List Char), segs ≠ [] →
    (∀ g ∈ segs, '/' ∉ g) → splitSlashList (joinSegs segs) = segs := by
  intro segs
  induction segs with
  | nil => intro h; exact absurd rfl h
  | cons g gs ih =>
    intro _ hall
    cases gs with
    | nil => exact splitSlashList_no_slash g (hall g (List.mem_cons_self g []))
    | cons h t =>
      rw [joinSegs_cons_cons, splitSlashList_append g _ (hall g (List.mem_cons_self g _)),
        ih (by simp) (fun x hx => hall x (List.mem_cons_of_mem g hx))]

theorem joinSegs_append_single : ∀ (segs : List (List Char)) (t : List Char),
    segs ≠ [] → joinSegs (segs ++ [t]) = joinSegs segs ++ '/' :: t := by
  intro segs
  induction segs with
  | nil => intro t h; exact absurd rfl h
  | cons g gs ih =>
    intro t _
    cases gs with
    | nil => rfl
    | cons h u =>
      have h1 : joinSegs ((g :: h :: u) ++ [t]) = g ++ '/' :: joinSegs ((h :: u) ++ [t]) := rfl
      rw [h1, ih t (by simp), joinSegs_cons_cons]
      simp

theorem strJoinSlash_map_mk : ∀ segs : List (List Char),
    strJoinSlash (segs.map (fun cs => (⟨cs⟩ : String))) = joinSegs segs := by
  intro segs
  induction segs with
  | nil => rfl
  | cons g gs ih =>
    cases gs with
    | nil => rfl
    | cons h t =>
      simp only [List.map_cons] at ih ⊢
      have h1 : strJoinSlash ((⟨g⟩ : String) :: (⟨h⟩ : String) :: t.map (fun cs => (⟨cs⟩ : String)))
          = g ++ '/' :: strJoinSlash ((⟨h⟩ : String) :: t.map (fun cs => (⟨cs⟩ : String))) := rfl
      rw [h1, joinSegs_cons_cons, ih]

/-! ### Lemmas about the `..` pop -/

theorem cleanPopRev_stop (g rest : List Char) (hg : ∀ c ∈ g, c ≠ '/') (hr : rest ≠ []) :
    cleanPopRev 1 (g ++ '/' :: rest) = rest := by
  induction g with
  | nil =>
    simp only [List.nil_append, cleanPopRev]
    rw [if_neg]
    rintro ⟨-, h⟩
    exact h rfl
  | cons c g0 ih =>
    have hc : c ≠ '/' := hg c (List.mem_cons_self c g0)
    have hg0 : ∀ x ∈ g0, x ≠ '/' := fun x hx => hg x (List.mem_cons_of_mem c hx)
    have hlen : 1 < (g0 ++ '/' :: rest).length := by
      simp only [List.length_append, List.length_cons]
      have : 1 ≤ rest.length := List.length_pos.mpr hr
      omega
    simp only [List.cons_append, cleanPopRev, List.append_eq]
    rw [if_pos ⟨hlen, hc⟩]
    exact ih hg0

theorem cleanPopRev_last (g : List Char) (hne : g ≠ []) (hg : ∀ c ∈ g, c ≠ '/') :
    cleanPopRev 1 (g ++ ['/']) = ['/'] := by
  induction g with
  | nil => exact absurd rfl hne
  | cons c g0 ih =>
    have hc : c ≠ '/' := hg c (List.mem_cons_self c g0)
    have hg0 : ∀ x ∈ g0, x ≠ '/' := fun x hx => hg x (List.mem_cons_of_mem c hx)
    cases g0 with
    | nil =>
      simp only [List.nil_append, List.cons_append, cleanPopRev, List.append_eq]
      rw [if_neg (by simp)]
    | cons d g1 =>
      have hlen : 1 < ((d :: g1) ++ ['/']).length := by
        simp [List.length_append]
      simp only [List.cons_append, cleanPopRev, List.append_eq]
      rw [if_pos ⟨by simpa using hlen, hc⟩]
      exact ih (by simp) hg0

theorem joinSegs_ne_nil (segs : List (List Char)) (hne : segs ≠ [])
    (hg : ∀ g ∈ segs, g ≠ []) : joinSegs segs ≠ [] := by
  cases segs with
  | nil => exact absurd rfl hne
  | cons g gs =>
    cases gs with
    | nil => exact hg g (List.mem_cons_self g [])
    | cons h t =>
      rw [joinSegs_cons_cons]
      intro hcontra
      have := List.append_eq_nil.mp hcontra
      simp at this

theorem cleanPop_rooted (segs : List (List Char)) (hne : segs ≠ [])
    (hg : ∀ g ∈ segs, goodSeg g) :
    cleanPop 1 ('/' :: joinSegs segs) = '/' :: joinSegs segs.dropLast := by
  rcases List.eq_nil_or_concat segs with h | ⟨init, g, h⟩
  · exact absurd h hne
  · rw [List.concat_eq_append] at h
    subst h
    have hgood : goodSeg g := hg g (by simp)
    have hgne : g ≠ [] := hgood.1
    have hgs : ∀ c ∈ g, c ≠ '/' := by
      intro c hc hcontra
      exact hgood.2.1 (hcontra ▸ hc)
    have hgrev : ∀ c ∈ g.reverse, c ≠ '/' := by
      intro c hc
      exact hgs c (List.mem_reverse.mp hc)
    cases init with
    | nil =>
      have h1 : joinSegs [g] = g := rfl
      have h2 : ('/' :: g).reverse = g.reverse ++ ['/'] := by
        simp
      unfold cleanPop
      rw [List.nil_append, h1, h2, cleanPopRev_last g.reverse (by simpa using hgne) hgrev]
      rfl
    | cons i0 it =>
      have hinit : (i0 :: it) ≠ ([] : List (List Char)) := by simp
      rw [joinSegs_append_single (i0 :: it) g hinit]
      unfold cleanPop
      have h2 : ('/' :: (joinSegs (i0 :: it) ++ '/' :: g)).reverse
          = g.reverse ++ '/' :: ((joinSegs (i0 :: it)).reverse ++ ['/']) := by
        simp
      rw [h2, cleanPopRev_stop g.reverse _ hgrev (by simp)]
      rw [List.dropLast_concat]
      simp

theorem rootedClean_length (l : List Char) (h : rootedClean l) : 1 ≤ l.length := by
  rcases h with h | ⟨segs, -, -, h⟩ <;> subst h <;> simp

theorem rootedClean_head (l : List Char) (h : rootedClean l) : l.headD ' ' = '/' := by
  rcases h with h | ⟨segs, -, -, h⟩ <;> subst h <;> rfl

theorem rootedClean_ne_nil (l : List Char) (h : rootedClean l) : l ≠ [] := by
  rcases h with h | ⟨segs, -, -, h⟩ <;> subst h <;> simp

theorem rootedClean_pop (l : List Char) (h : rootedClean l) (hlen : 1 < l.length) :
    rootedClean (cleanPop 1 l) := by
  rcases h with h | ⟨segs, hne, hg, h⟩
  · subst h; simp at hlen
  · subst h
    rw [cleanPop_rooted segs hne hg]
    cases hd : segs.dropLast with
    | nil => left; rfl
    | cons a b =>
      right
      refine ⟨a :: b, by simp, ?_, rfl⟩
      intro g hgmem
      exact hg g (List.dropLast_subset segs (by rw [hd]; exact hgmem))

theorem rootedClean_append (out seg : List Char) (h : rootedClean out) (hs : goodSeg seg) :
    rootedClean (out ++ (if out.length = 1 then [] else ['/']) ++ seg) := by
  rcases h with h | ⟨segs, hne, hg, h⟩
  · subst h
    right
    exact ⟨[seg], by simp, by simpa using hs, by simp [joinSegs]⟩
  · subst h
    have hnn : joinSegs segs ≠ [] :=
      joinSegs_ne_nil segs hne (fun g hgm => (hg g hgm).1)
    have hlen : ('/' :: joinSegs segs).length ≠ 1 := by
      simp only [List.length_cons]
      have : 1 ≤ (joinSegs segs).length := List.length_pos.mpr hnn
      omega
    rw [if_neg hlen]
    right
    refine ⟨segs ++ [seg], by simp, ?_, ?_⟩
    · intro g hgm
      rcases List.mem_append.mp hgm with hm | hm
      · exact hg g hm
      · simpa using (List.mem_singleton.mp hm ▸ hs)
    · rw [joinSegs_append_single segs seg hne]
      simp

/-! ### Step lemmas for `cleanLoop` -/

theorem cleanLoop_nil (r : Bool) (d : Nat) (out : List Char) :
    cleanLoop r d out [] = out := by
  rw [cleanLoop]

theorem cleanLoop_slash (r : Bool) (d : Nat) (out cs : List Char) :
    cleanLoop r d out ('/' :: cs) = cleanLoop r d out cs := by
  rw [cleanLoop]
  simp

theorem takeSeg_fst_cons (c : Char) (cs : List Char) (hc : c ≠ '/') :
    (takeSeg (c :: cs)).1 = c :: (takeSeg cs).1 := by
  simp [takeSeg, if_neg hc]

theorem takeSeg_fst_nil_iff (l : List Char) :
    (takeSeg l).1 = [] ↔ l = [] ∨ l.headD ' ' = '/' := by
  cases l with
  | nil => simp [takeSeg]
  | cons c cs =>
    by_cases hc : c = '/'
    · simp [takeSeg, hc]
    · simp [takeSeg, if_neg hc, hc]

theorem glue_cons (g : List Char) (gs : List (List Char)) :
    glue (g :: gs) = '/' :: (g ++ glue gs) := by
  simp [glue]

/-- One whole good element is consumed by a single `cleanLoop` default-case
step, appending a separator (unless the buffer is the fresh rooted "/" or the
fresh relative empty buffer) and the element. -/
theorem cleanLoop_seg_step (rooted : Bool) (dotdot : Nat) (out g rest : List Char)
    (hg : goodSeg g) (hrest : rest = [] ∨ rest.headD ' ' = '/') :
    cleanLoop rooted dotdot out (g ++ rest) =
      cleanLoop rooted dotdot
        (out ++ (if (rooted = true ∧ out.length ≠ 1) ∨ (rooted = false ∧ out.length ≠ 0)
                 then ['/'] else []) ++ g) rest := by
  obtain ⟨hne, hslash, hdot, hdotdot⟩ := hg
  cases g with
  | nil => exact absurd rfl hne
  | cons c g0 =>
    have hc : c ≠ '/' := fun h => hslash (h ▸ List.mem_cons_self c g0)
    have hg0s : '/' ∉ g0 := fun h => hslash (List.mem_cons_of_mem c h)
    have h2 : ¬(c = '.' ∧ (g0 ++ rest = [] ∨ (g0 ++ rest).headD ' ' = '/')) := by
      rintro ⟨hcdot, hor⟩
      subst hcdot
      cases g0 with
      | nil => exact hdot rfl
      | cons d g1 =>
        have hd : d ≠ '/' := fun h => hg0s (h ▸ List.mem_cons_self d g1)
        rcases hor with h1 | h1
        · simp at h1
        · simp at h1; exact hd h1
    have h3 : ¬(c = '.' ∧ (g0 ++ rest).headD ' ' = '.' ∧
        ((g0 ++ rest).tail = [] ∨ (g0 ++ rest).tail.headD ' ' = '/')) := by
      rintro ⟨hcdot, hhead, hor⟩
      subst hcdot
      cases g0 with
      | nil =>
        simp only [List.nil_append] at hhead hor
        rcases hrest with h | h
        · subst h; simp at hhead
        · cases rest with
          | nil => simp at hhead
          | cons r rs => simp at h hhead; rw [hhead] at h; simp at h
      | cons d g1 =>
        have hddot : d = '.' := by simpa using hhead
        subst hddot
        cases g1 with
        | nil => exact hdotdot rfl
        | cons e g2 =>
          have he : e ≠ '/' := fun h =>
            hg0s (List.mem_cons_of_mem '.' (h ▸ List.mem_cons_self e g2))
          rcases hor with h1 | h1
          · simp at h1
          · simp at h1; exact he h1
    have htake : takeSeg ((c :: g0) ++ rest) = (c :: g0, rest) := by
      rcases hrest with h | h
      · subst h
        rw [List.append_nil]
        exact takeSeg_no_slash (c :: g0) hslash
      · cases rest with
        | nil => simp at h
        | cons r rs =>
          have hr : r = '/' := by simpa using h
          subst hr
          exact takeSeg_append (c :: g0) rs hslash
    rw [List.cons_append, cleanLoop]
    rw [if_neg hc, if_neg h2, if_neg h3]
    have htake1 : (takeSeg (c :: (g0 ++ rest))).1 = c :: g0 := by
      rw [← List.cons_append, htake]
    have htake2 : (takeSeg (c :: (g0 ++ rest))).2 = rest := by
      rw [← List.cons_append, htake]
    show cleanLoop rooted dotdot
        (out ++ (if (rooted = true ∧ out.length ≠ 1) ∨ (rooted = false ∧ out.length ≠ 0)
          then ['/'] else []) ++ (takeSeg (c :: (g0 ++ rest))).1)
        (takeSeg (c :: (g0 ++ rest))).2 = _
    rw [htake1, htake2]

theorem cleanLoop_glue_absorb : ∀ (gs : List (List Char)) (rooted : Bool) (dotdot : Nat)
    (out : List Char), (∀ g ∈ gs, goodSeg g) →
    (2 ≤ out.length ∨ (rooted = false ∧ 1 ≤ out.length)) →
    cleanLoop rooted dotdot out (glue gs) = out ++ glue gs := by
  intro gs
  induction gs with
  | nil =>
    intro rooted dotdot out _ _
    simp [glue, cleanLoop_nil]
  | cons g t ih =>
    intro rooted dotdot out hg hlen
    rw [glue_cons, cleanLoop_slash]
    have hrest : glue t = [] ∨ (glue t).headD ' ' = '/' := by
      cases t with
      | nil => left; rfl
      | cons x y => right; rw [glue_cons]; rfl
    rw [cleanLoop_seg_step rooted dotdot out g (glue t) (hg g (List.mem_cons_self g t)) hrest]
    have hsep : (rooted = true ∧ out.length ≠ 1) ∨ (rooted = false ∧ out.length ≠ 0) := by
      rcases hlen with h | ⟨hr, h⟩
      · cases rooted with
        | true => exact Or.inl ⟨rfl, by omega⟩
        | false => exact Or.inr ⟨rfl, by omega⟩
      · exact Or.inr ⟨hr, by omega⟩
    rw [if_pos hsep]
    rw [ih rooted dotdot (out ++ ['/'] ++ g)
      (fun x hx => hg x (List.mem_cons_of_mem g hx))
      (by left; simp; omega)]
    simp

theorem cleanLoop_rooted_fix (g : List Char) (gs : List (List Char)) (hg : goodSeg g)
    (hgs : ∀ x ∈ gs, goodSeg x) :
    cleanLoop true 1 ['/'] (g ++ glue gs) = '/' :: (g ++ glue gs) := by
  have hrest : glue gs = [] ∨ (glue gs).headD ' ' = '/' := by
    cases gs with
    | nil => left; rfl
    | cons x y => right; rw [glue_cons]; rfl
  rw [cleanLoop_seg_step true 1 ['/'] g (glue gs) hg hrest]
  rw [if_neg (by simp)]
  have h1 : (['/'] : List Char) ++ [] ++ g = '/' :: g := by simp
  rw [h1]
  have hglen : 2 ≤ ('/' :: g).length := by
    simp only [List.length_cons]
    have : 1 ≤ g.length := List.length_pos.mpr hg.1
    omega
  rw [cleanLoop_glue_absorb gs true 1 ('/' :: g) hgs (Or.inl hglen)]
  simp

/-- A rooted string made of good slash-joined elements is a fixed point of
`Clean`. -/
theorem cleanChars_rooted_fix (segs : List (List Char)) (hne : segs ≠ [])
    (hg : ∀ g ∈ segs, goodSeg g) :
    cleanChars ('/' :: joinSegs segs) = '/' :: joinSegs segs := by
  cases segs with
  | nil => exact absurd rfl hne
  | cons g t =>
    rw [joinSegs_eq_glue]
    unfold cleanChars
    rw [if_neg (by simp)]
    simp only [List.headD_cons, List.tail_cons, if_pos rfl]
    rw [cleanLoop_rooted_fix g t (hg g (List.mem_cons_self g t))
      (fun x hx => hg x (List.mem_cons_of_mem g hx))]
    simp

/-- A good element on its own (a relative single-element path) is a fixed
point of `Clean`. -/
theorem cleanChars_seg_fix (g : List Char) (hg : goodSeg g) : cleanChars g = g := by
  have hne := hg.1
  have hhead : g.headD ' ' ≠ '/' := by
    cases g with
    | nil => exact absurd rfl hne
    | cons c cs =>
      intro h
      exact hg.2.1 (by simp at h; rw [h]; exact List.mem_cons_self _ _)
  unfold cleanChars
  rw [if_neg hne, if_neg hhead]
  have h1 : cleanLoop false 0 [] g = g := by
    have h2 := cleanLoop_seg_step false 0 [] g [] hg (Or.inl rfl)
    rw [List.append_nil] at h2
    rw [h2, if_neg (by simp), cleanLoop_nil]
    simp
  rw [h1, if_neg hne]

/-- Invariant: in rooted mode, `cleanLoop`'s buffer stays a bare "/" or a
slash followed by good slash-joined elements. -/
theorem cleanLoop_rooted_inv : ∀ (n : Nat) (input out : List Char), input.length ≤ n →
    rootedClean out → rootedClean (cleanLoop true 1 out input) := by
  intro n
  induction n with
  | zero =>
    intro input out hlen h
    cases input with
    | nil => rw [cleanLoop_nil]; exact h
    | cons c cs => simp at hlen
  | succ n ih =>
    intro input out hlen h
    cases input with
    | nil => rw [cleanLoop_nil]; exact h
    | cons c cs =>
      have hcs : cs.length ≤ n := by simp at hlen; omega
      rw [cleanLoop]
      by_cases h1 : c = '/'
      · rw [if_pos h1]; exact ih cs out hcs h
      · rw [if_neg h1]
        by_cases h2 : c = '.' ∧ (cs = [] ∨ cs.headD ' ' = '/')
        · rw [if_pos h2]; exact ih cs out hcs h
        · rw [if_neg h2]
          by_cases h3 : c = '.' ∧ cs.headD ' ' = '.' ∧ (cs.tail = [] ∨ cs.tail.headD ' ' = '/')
          · rw [if_pos h3]
            have htail : cs.tail.length ≤ n := le_trans (by cases cs <;> simp) hcs
            by_cases h4 : 1 < out.length
            · rw [if_pos h4]
              exact ih cs.tail (cleanPop 1 out) htail (rootedClean_pop out h h4)
            · rw [if_neg h4, if_neg (by simp)]
              exact ih cs.tail out htail h
          · rw [if_neg h3]
            show rootedClean (cleanLoop true 1
              (out ++ (if (true = true ∧ out.length ≠ 1) ∨ (true = false ∧ out.length ≠ 0)
                then ['/'] else []) ++ (takeSeg (c :: cs)).1) (takeSeg (c :: cs)).2)
            have hseg : goodSeg (takeSeg (c :: cs)).1 := by
              rw [takeSeg_fst_cons c cs h1]
              refine ⟨by simp, ?_, ?_, ?_⟩
              · intro hm
                rcases List.mem_cons.mp hm with hx | hx
                · exact h1 hx.symm
                · exact takeSeg_fst_no_slash cs hx
              · intro hx
                have hc : c = '.' := by
                  have := congrArg (fun l => l.headD ' ') hx
                  simpa using this
                have hnil : (takeSeg cs).1 = [] := by
                  have := congrArg List.tail hx
                  simpa using this
                exact h2 ⟨hc, (takeSeg_fst_nil_iff cs).mp hnil⟩
              · intro hx
                have hc : c = '.' := by
                  have := congrArg (fun l => l.headD ' ') hx
                  simpa using this
                have htl : (takeSeg cs).1 = ['.'] := by
                  have := congrArg List.tail hx
                  simpa using this
                cases cs with
                | nil => simp [takeSeg] at htl
                | cons d ds =>
                  by_cases hd : d = '/'
                  · rw [hd] at htl; simp [takeSeg] at htl
                  · rw [takeSeg_fst_cons d ds hd] at htl
                    have hddot : d = '.' := by
                      have := congrArg (fun l => l.headD ' ') htl
                      simpa using this
                    have hdsnil : (takeSeg ds).1 = [] := by
                      have := congrArg List.tail htl
                      simpa using this
                    exact h3 ⟨hc, by simp [hddot], by
                      simpa using (takeSeg_fst_nil_iff ds).mp hdsnil⟩
            have hlen2 : (takeSeg (c :: cs)).2.length ≤ n := by
              have h5 : (takeSeg (c :: cs)).2 = (takeSeg cs).2 := by
                simp [takeSeg, if_neg h1]
              rw [h5]
              exact le_trans (takeSeg_snd_length cs) hcs
            have hout2 : rootedClean (out ++ (if (true = true ∧ out.length ≠ 1) ∨
                (true = false ∧ out.length ≠ 0) then ['/'] else []) ++ (takeSeg (c :: cs)).1) := by
              have hcond : ((true = true ∧ out.length ≠ 1) ∨ (true = false ∧ out.length ≠ 0))
                  ↔ ¬(out.length = 1) := by
                constructor
                · rintro (⟨-, hx⟩ | ⟨hx, -⟩)
                  · exact hx
                  · exact absurd hx (by simp)
                · intro hx; exact Or.inl ⟨rfl, hx⟩
              by_cases hl : out.length = 1
              · rw [if_neg (by rw [hcond]; exact not_not_intro hl)]
                have := rootedClean_append out (takeSeg (c :: cs)).1 h hseg
                rw [if_pos hl] at this
                exact this
              · rw [if_pos (hcond.mpr hl)]
                have := rootedClean_append out (takeSeg (c :: cs)).1 h hseg
                rw [if_neg hl] at this
                exact this
            exact ih (takeSeg (c :: cs)).2 _ hlen2 hout2

theorem cleanPopRev_drop (d : Nat) : ∀ l : List Char, ∃ k, cleanPopRev d l = l.drop k := by
  intro l
  induction l with
  | nil => exact ⟨0, rfl⟩
  | cons c rl ih =>
    by_cases hcond : d < rl.length ∧ c ≠ '/'
    · obtain ⟨k, hk⟩ := ih
      refine ⟨k + 1, ?_⟩
      rw [cleanPopRev, if_pos hcond, hk]
      rfl
    · refine ⟨1, ?_⟩
      rw [cleanPopRev, if_neg hcond]
      rfl

theorem cleanPop_isPrefixOf (d : Nat) (l : List Char) :
    ∃ t, cleanPop d l ++ t = l := by
  obtain ⟨k, hk⟩ := cleanPopRev_drop d l.reverse
  refine ⟨(l.reverse.take k).reverse, ?_⟩
  unfold cleanPop
  rw [hk, ← List.reverse_append, List.take_append_drop, List.reverse_reverse]

theorem headD_of_append (p t : List Char) (hp : p ≠ []) :
    (p ++ t).headD ' ' = p.headD ' ' := by
  cases p with
  | nil => exact absurd rfl hp
  | cons c cs => rfl

/-- Invariant: in relative (unrooted) mode, the buffer never starts with a
slash. -/
theorem cleanLoop_unrooted_head : ∀ (n : Nat) (input : List Char) (dotdot : Nat)
    (out : List Char), input.length ≤ n → (out = [] ∨ out.headD ' ' ≠ '/') →
    (cleanLoop false dotdot out input = [] ∨
      (cleanLoop false dotdot out input).headD ' ' ≠ '/') := by
  intro n
  induction n with
  | zero =>
    intro input dotdot out hlen h
    cases input with
    | nil => rw [cleanLoop_nil]; exact h
    | cons c cs => simp at hlen
  | succ n ih =>
    intro input dotdot out hlen h
    cases input with
    | nil => rw [cleanLoop_nil]; exact h
    | cons c cs =>
      have hcs : cs.length ≤ n := by simp at hlen; omega
      rw [cleanLoop]
      by_cases h1 : c = '/'
      · rw [if_pos h1]; exact ih cs dotdot out hcs h
      · rw [if_neg h1]
        by_cases h2 : c = '.' ∧ (cs = [] ∨ cs.headD ' ' = '/')
        · rw [if_pos h2]; exact ih cs dotdot out hcs h
        · rw [if_neg h2]
          by_cases h3 : c = '.' ∧ cs.headD ' ' = '.' ∧ (cs.tail = [] ∨ cs.tail.headD ' ' = '/')
          · rw [if_pos h3]
            have htail : cs.tail.length ≤ n := le_trans (by cases cs <;> simp) hcs
            by_cases h4 : dotdot < out.length
            · rw [if_pos h4]
              apply ih cs.tail dotdot (cleanPop dotdot out) htail
              obtain ⟨t, ht⟩ := cleanPop_isPrefixOf dotdot out
              cases hpop : cleanPop dotdot out with
              | nil => left; rfl
              | cons d ds =>
                right
                rcases h with hnil | hhead
                · subst hnil
                  rw [hpop] at ht
                  simp at ht
                · rw [hpop] at ht
                  rw [← ht] at hhead
                  rw [headD_of_append (d :: ds) t (by simp)] at hhead
                  exact hhead
            · rw [if_neg h4, if_pos rfl]
              apply ih cs.tail _ _ htail
              right
              by_cases hone : out = []
              · subst hone
                rw [if_neg (by simp)]
                simp
              · rw [if_pos (List.length_pos.mpr hone)]
                rw [List.append_assoc, headD_of_append out _ hone]
                rcases h with hnil | hhead
                · exact absurd hnil hone
                · exact hhead
          · rw [if_neg h3]
            show (cleanLoop false dotdot
              (out ++ (if (false = true ∧ out.length ≠ 1) ∨ (false = false ∧ out.length ≠ 0)
                then ['/'] else []) ++ (takeSeg (c :: cs)).1) (takeSeg (c :: cs)).2 = []) ∨
              (cleanLoop false dotdot
                (out ++ (if (false = true ∧ out.length ≠ 1) ∨ (false = false ∧ out.length ≠ 0)
                  then ['/'] else []) ++ (takeSeg (c :: cs)).1)
                (takeSeg (c :: cs)).2).headD ' ' ≠ '/'
            have hlen2 : (takeSeg (c :: cs)).2.length ≤ n := by
              have h5 : (takeSeg (c :: cs)).2 = (takeSeg cs).2 := by
                simp [takeSeg, if_neg h1]
              rw [h5]
              exact le_trans (takeSeg_snd_length cs) hcs
            apply ih _ _ _ hlen2
            right
            by_cases hone : out = []
            · subst hone
              rw [if_neg (by simp)]
              rw [takeSeg_fst_cons c cs h1]
              simpa using h1
            · rw [List.append_assoc, headD_of_append out _ hone]
              rcases h with hnil | hhead
              · exact absurd hnil hone
              · exact hhead

theorem cleanChars_ne_nil (cs : List Char) : cleanChars cs ≠ [] := by
  unfold cleanChars
  by_cases h : cs = []
  · rw [if_pos h]; simp
  · rw [if_neg h]
    show (if (if cs.headD ' ' = '/' then cleanLoop true 1 ['/'] cs.tail
        else cleanLoop false 0 [] cs) = [] then ['.']
      else (if cs.headD ' ' = '/' then cleanLoop true 1 ['/'] cs.tail
        else cleanLoop false 0 [] cs)) ≠ []
    split
    · split
      · simp
      · assumption
    · split
      · simp
      · assumption

/-- A rooted input cleans to a `rootedClean` buffer. -/
theorem cleanChars_rooted (cs : List Char) (h : cs.headD ' ' = '/') :
    rootedClean (cleanChars cs) := by
  have hne : cs ≠ [] := by
    intro hx; subst hx; simp at h
  unfold cleanChars
  rw [if_neg hne, if_pos h]
  have hinv := cleanLoop_rooted_inv cs.tail.length cs.tail ['/'] le_rfl (Or.inl rfl)
  rw [if_neg (rootedClean_ne_nil _ hinv)]
  exact hinv

/-- A relative input cleans to a relative output. -/
theorem cleanChars_unrooted (cs : List Char) (h : cs.headD ' ' ≠ '/') :
    (cleanChars cs).headD ' ' ≠ '/' := by
  by_cases hne : cs = []
  · subst hne
    unfold cleanChars
    rw [if_pos rfl]
    simp
  · unfold cleanChars
    rw [if_neg hne, if_neg h]
    have hinv := cleanLoop_unrooted_head cs.length cs 0 [] le_rfl (Or.inl rfl)
    rcases hinv with hx | hx
    · rw [if_pos hx]; simp
    · by_cases hr : cleanLoop false 0 [] cs = []
      · rw [if_pos hr]; simp
      · rw [if_neg hr]; exact hx

/-- A relative string made of good slash-joined elements is a fixed point of
`Clean`. -/
theorem cleanChars_unrooted_fix (segs : List (List Char)) (hne : segs ≠ [])
    (hg : ∀ g ∈ segs, goodSeg g) : cleanChars (joinSegs segs) = joinSegs segs := by
  cases segs with
  | nil => exact absurd rfl hne
  | cons g t =>
    have hgood : goodSeg g := hg g (List.mem_cons_self g t)
    have hgne : g ≠ [] := hgood.1
    have hjoin : joinSegs (g :: t) = g ++ glue t := joinSegs_eq_glue g t
    have hjne : joinSegs (g :: t) ≠ [] := by
      rw [hjoin]
      intro hx
      exact hgne (List.append_eq_nil.mp hx).1
    have hhead : (joinSegs (g :: t)).headD ' ' ≠ '/' := by
      rw [hjoin]
      rw [headD_of_append g _ hgne]
      cases g with
      | nil => exact absurd rfl hgne
      | cons c cs =>
        intro hx
        exact hgood.2.1 (by simp at hx; rw [hx]; exact List.mem_cons_self _ _)
    have hrest : glue t = [] ∨ (glue t).headD ' ' = '/' := by
      cases t with
      | nil => left; rfl
      | cons x y => right; rw [glue_cons]; rfl
    have hloop : cleanLoop false 0 [] (g ++ glue t) = g ++ glue t := by
      rw [cleanLoop_seg_step false 0 [] g (glue t) hgood hrest]
      rw [if_neg (by simp)]
      simp only [List.nil_append]
      exact cleanLoop_glue_absorb t false 0 g
        (fun x hx => hg x (List.mem_cons_of_mem g hx))
        (Or.inr ⟨rfl, List.length_pos.mpr hgne⟩)
    unfold cleanChars
    rw [if_neg hjne, if_neg hhead, hjoin, hloop]
    rw [if_neg (by intro hx; exact hgne (List.append_eq_nil.mp hx).1)]

/-! ### Lemmas about heads, last characters and splitting -/

theorem getLastD_append_right (Y g : List Char) (h : g ≠ []) (d : Char) :
    (Y ++ g).getLastD d = g.getLastD d := by
  rw [List.getLastD_eq_getLast?, List.getLastD_eq_getLast?,
    List.getLast?_append_of_ne_nil Y h]

theorem getLastD_ne_slash (g : List Char) (hne : g ≠ []) (hs : '/' ∉ g) (d : Char) :
    g.getLastD d ≠ '/' := by
  rw [List.getLastD_eq_getLast?, List.getLast?_eq_getLast g hne]
  intro hx
  simp only [Option.getD_some] at hx
  exact hs (hx ▸ List.getLast_mem hne)

/-- A rooted clean string of good elements does not end with a slash. -/
theorem rooted_join_getLast (segs : List (List Char)) (hne : segs ≠ [])
    (hg : ∀ g ∈ segs, goodSeg g) : ('/' :: joinSegs segs).getLastD ' ' ≠ '/' := by
  rcases List.eq_nil_or_concat segs with h | ⟨init, g, h⟩
  · exact absurd h hne
  · rw [List.concat_eq_append] at h
    subst h
    have hgood : goodSeg g := hg g (by simp)
    cases init with
    | nil =>
      have h1 : joinSegs [g] = g := rfl
      rw [List.nil_append, h1]
      have h2 : ('/' :: g) = ['/'] ++ g := rfl
      rw [h2, getLastD_append_right ['/'] g hgood.1 ' ']
      exact getLastD_ne_slash g hgood.1 hgood.2.1 ' '
    | cons i0 it =>
      rw [joinSegs_append_single (i0 :: it) g (by simp)]
      have h2 : ('/' :: (joinSegs (i0 :: it) ++ '/' :: g))
          = ('/' :: joinSegs (i0 :: it) ++ ['/']) ++ g := by simp
      rw [h2, getLastD_append_right _ g hgood.1 ' ']
      exact getLastD_ne_slash g hgood.1 hgood.2.1 ' '

theorem splitSlashList_cons_slash (l : List Char) :
    splitSlashList ('/' :: l) = [] :: splitSlashList l := by
  simp [splitSlashList]

/-- The components of a rooted good join: an empty head then the elements. -/
theorem splitSlashList_rooted (segs : List (List Char)) (hne : segs ≠ [])
    (hg : ∀ g ∈ segs, '/' ∉ g) :
    splitSlashList ('/' :: joinSegs segs) = [] :: segs := by
  rw [splitSlashList_cons_slash, splitSlashList_joinSegs segs hne hg]

theorem splitSlashList_head_ne_nil (c : Char) (l : List Char) (hc : c ≠ '/') :
    (splitSlashList (c :: l)).headD [] ≠ [] := by
  simp only [splitSlashList, if_neg hc]
  cases h : splitSlashList l with
  | nil => simp
  | cons s rest => simp

/-! ### Facts about `NewPath` -/

theorem comps_getD_default (comps : List String) (h : comps.length = 1) :
    comps.getD 1 "" = "" := by
  cases comps with
  | nil => simp at h
  | cons a t =>
    cases t with
    | nil => rfl
    | cons b u => simp at h

/-- Acceptance with second cleaned component "ipns" forces namespace "ipfs"
(the `IPNSNamespace` switch arm of `NewPath` stores `IPFSNamespace`). -/
theorem newPathAux_second_ipns (M : CidModel) (s : String) (comps : List String)
    (cleaned : String) (p : GoPath)
    (hok : newPathAux M s comps cleaned = .ok p)
    (hsecond : comps.getD 1 "" = IPNSNamespace) :
    p.nspace = IPFSNamespace := by
  unfold newPathAux at hok
  split at hok
  · rename_i c heq
    by_cases hone : comps.length = 1
    · rw [comps_getD_default _ hone] at hsecond
      simp [IPNSNamespace] at hsecond
    · rw [if_neg hone] at heq
      simp at heq
  · split at hok
    · split at hok
      · simp only [Except.ok.injEq] at hok
        rw [← hok]
      · simp at hok
    · split at hok
      · simp at hok
      · rw [hsecond] at hok
        split at hok
        · rename_i hcond
          simp [IPNSNamespace, IPFSNamespace, IPLDNamespace] at hcond
        · split at hok
          · simp at hok
          · simp only [Except.ok.injEq] at hok
            rw [← hok]

theorem newPathAux_two_components (M : CidModel) (s : String) (comps : List String)
    (cleaned : String) (hlen : comps.length = 2) (hhead : comps.headD "" = "") :
    newPathAux M s comps cleaned = .error ⟨.notEnoughComponents, s⟩ := by
  unfold newPathAux
  have h1 : ¬comps.length = 1 := by omega
  have h2 : ¬comps.headD "" ≠ "" := by simp only [ne_eq, not_not]; exact hhead
  have h3 : comps.length < 3 := by omega
  simp only [if_neg h1, if_neg h2, if_pos h3]

theorem newPathAux_single_ok (M : CidModel) (s : String) (comps : List String)
    (cleaned : String) (c : Cid) (hlen : comps.length = 1)
    (hdec : M.decode (comps.headD "") = some c) :
    (newPathAux M s comps cleaned).isOk = true := by
  unfold newPathAux
  simp only [if_pos hlen, hdec]
  by_cases hc : c.codec = libp2pKeyCodec
  · simp only [if_pos hc]; rfl
  · simp only [if_neg hc]; rfl

/-- The cleaned form of a rooted input has an empty first component. -/
theorem cleanChars_rooted_comps_head (s2 : String) (hroot : s2.data.headD ' ' = '/') :
    ((splitSlashList (cleanChars s2.data)).map (fun l => (⟨l⟩ : String))).headD "" = "" := by
  have hrc := cleanChars_rooted s2.data hroot
  rcases hrc with h | ⟨segs, hne, hg, h⟩
  · rw [h]; rfl
  · rw [h, splitSlashList_cons_slash]; rfl

/-- C1: for every input accepted by `NewPath` whose second slash-separated
component (of the cleaned string, which is what `NewPath` branches on) is
"ipns", the returned path has `Namespace() = "ipfs"` and therefore
`Mutable() = false`, whereas `NewIPNSPath` and `NewDNSLinkPath` produce
paths with `Namespace() = "ipns"` and `Mutable() = true`; parsing an /ipns
string and constructing an /ipns path disagree. -/
theorem newPath_ipns_parse_vs_construct (M : CidModel) (s : String) (p : GoPath)
    (hok : NewPath M s = .ok p)
    (hsecond : ((splitSlashList (cleanChars s.data)).map
      (fun l => (⟨l⟩ : String))).getD 1 "" = IPNSNamespace) :
    (p.Namespace = IPFSNamespace ∧ p.Mutable = false) ∧
    (∀ (M2 : CidModel) (c : Cid),
      (NewIPNSPath M2 c).Namespace = IPNSNamespace ∧ (NewIPNSPath M2 c).Mutable = true) ∧
    (∀ d : String,
      (NewDNSLinkPath d).Namespace = IPNSNamespace ∧ (NewDNSLinkPath d).Mutable = true) := by
  have hok2 : newPathAux M s
      ((splitSlashList (cleanChars s.data)).map (fun l => (⟨l⟩ : String)))
      (if s.data.getLastD ' ' = '/' then (⟨cleanChars s.data ++ ['/']⟩ : String)
        else ⟨cleanChars s.data⟩) = .ok p := hok
  have hns := newPathAux_second_ipns M s _ _ p hok2 hsecond
  refine ⟨⟨hns, ?_⟩, fun M2 c => ⟨rfl, by rfl⟩, fun d => ⟨rfl, by rfl⟩⟩
  unfold GoPath.Mutable
  rw [hns]
  rfl

theorem newPath_ipns_parse_vs_construct_witness :
    (NewPath M0 "/ipns/domain.net" = .ok ⟨"/ipns/domain.net", cidUndef, IPFSNamespace⟩) ∧
    ((⟨"/ipns/domain.net", cidUndef, IPFSNamespace⟩ : GoPath).Namespace = IPFSNamespace ∧
      (⟨"/ipns/domain.net", cidUndef, IPFSNamespace⟩ : GoPath).Mutable = false) := by
  have hfix : cleanChars "/ipns/domain.net".data = "/ipns/domain.net".data := by
    have h1 : "/ipns/domain.net".data = '/' :: joinSegs ["ipns".data, "domain.net".data] := by
      decide
    rw [h1]
    exact cleanChars_rooted_fix _ (by simp) (by decide)
  have hok : NewPath M0 "/ipns/domain.net"
      = .ok ⟨"/ipns/domain.net", cidUndef, IPFSNamespace⟩ := by
    unfold NewPath
    rw [hfix]
    decide
  have h := newPath_ipns_parse_vs_construct M0 "/ipns/domain.net"
    ⟨"/ipns/domain.net", cidUndef, IPFSNamespace⟩ hok (by rw [hfix]; decide)
  exact ⟨hok, h.1⟩

/-- C10: every input beginning with "/" whose cleaned form has exactly two
slash-separated components (such as "/", "/ipfs", "/testfs" or a slash
followed by a valid CID) is rejected by `NewPath` with an `ErrInvalidPath`
whose message is "not enough path components"; in particular a valid bare
CID with a leading slash is rejected although the bare CID alone is
accepted. -/
theorem newPath_not_enough_components (M : CidModel) (str : String) (c : Cid)
    (hdec : M.decode str = some c) (hgood : goodSeg str.data) :
    (∀ s2 : String, s2.data.headD ' ' = '/' →
      (splitSlashList (cleanChars s2.data)).length = 2 →
      NewPath M s2 = .error ⟨.notEnoughComponents, s2⟩) ∧
    PathErrKind.message .notEnoughComponents = "not enough path components" ∧
    NewPath M ("/" ++ str) = .error ⟨.notEnoughComponents, "/" ++ str⟩ ∧
    (NewPath M str).isOk = true := by
  have hpart1 : ∀ s2 : String, s2.data.headD ' ' = '/' →
      (splitSlashList (cleanChars s2.data)).length = 2 →
      NewPath M s2 = .error ⟨.notEnoughComponents, s2⟩ := by
    intro s2 hroot hlen2
    have h := newPathAux_two_components M s2
      ((splitSlashList (cleanChars s2.data)).map (fun l => (⟨l⟩ : String)))
      (if s2.data.getLastD ' ' = '/' then (⟨cleanChars s2.data ++ ['/']⟩ : String)
        else ⟨cleanChars s2.data⟩)
      (by rw [List.length_map]; exact hlen2)
      (cleanChars_rooted_comps_head s2 hroot)
    exact h
  refine ⟨hpart1, rfl, ?_, ?_⟩
  · have hdata : ("/" ++ str).data = '/' :: str.data := by
      rw [String.data_append]; rfl
    apply hpart1
    · rw [hdata]; rfl
    · rw [hdata]
      have hfix : cleanChars ('/' :: str.data) = '/' :: str.data := by
        have h1 : ('/' :: str.data) = '/' :: joinSegs [str.data] := rfl
        rw [h1]
        exact cleanChars_rooted_fix [str.data] (by simp) (by simpa using hgood)
      rw [hfix, splitSlashList_cons_slash, splitSlashList_no_slash str.data hgood.2.1]
      rfl
  · have hfix2 : cleanChars str.data = str.data := cleanChars_seg_fix str.data hgood
    have hcomps : ((splitSlashList (cleanChars str.data)).map (fun l => (⟨l⟩ : String)))
        = [str] := by
      rw [hfix2, splitSlashList_no_slash str.data hgood.2.1]
      rfl
    show (newPathAux M str
      ((splitSlashList (cleanChars str.data)).map (fun l => (⟨l⟩ : String)))
      (if str.data.getLastD ' ' = '/' then (⟨cleanChars str.data ++ ['/']⟩ : String)
        else ⟨cleanChars str.data⟩)).isOk = true
    rw [hcomps]
    exact newPathAux_single_ok M str [str] _ c rfl hdec

theorem newPath_not_enough_components_witness :
    (NewPath M0 ("/" ++ "QmA") = .error ⟨.notEnoughComponents, "/" ++ "QmA"⟩) ∧
    (NewPath M0 "QmA").isOk = true :=
  ⟨(newPath_not_enough_components M0 "QmA" ⟨112, "QmA"⟩ (by decide) (by decide)).2.2.1,
   (newPath_not_enough_components M0 "QmA" ⟨112, "QmA"⟩ (by decide) (by decide)).2.2.2⟩

theorem mk_ne_empty (g : List Char) (h : g ≠ []) : (⟨g⟩ : String) ≠ "" := by
  intro hx
  exact h (congrArg String.data hx)

theorem map_mk_getD (segs : List (List Char)) (n : Nat) (hn : n < segs.length) :
    (segs.map (fun l => (⟨l⟩ : String))).getD n "" = ⟨segs.getD n []⟩ := by
  unfold List.getD
  rw [List.get?_map]
  cases h : segs.get? n with
  | none =>
    rw [List.get?_eq_none] at h
    omega
  | some g => rfl

/-- Evaluation of the namespace switch of `newPathAux` when the first
component is empty and at least two more follow. -/
theorem newPathAux_switch (M : CidModel) (s cleaned : String) (rest : List String)
    (hlen : 2 ≤ rest.length) :
    newPathAux M s ("" :: rest) cleaned =
      (if rest.getD 0 "" = IPFSNamespace ∨ rest.getD 0 "" = IPLDNamespace then
        if rest.getD 1 "" = "" then .error ⟨.notEnoughComponents, s⟩
        else
          match M.decode (rest.getD 1 "") with
          | some root => .ok ⟨cleaned, root, rest.getD 0 ""⟩
          | none => .error ⟨.invalidCid, s⟩
      else if rest.getD 0 "" = IPNSNamespace then
        if rest.getD 1 "" = "" then .error ⟨.notEnoughComponents, s⟩
        else
          .ok ⟨cleaned,
            (match M.peerDecode (rest.getD 1 "") with
             | none => cidUndef
             | some pid => M.peerToCid pid), IPFSNamespace⟩
      else .error ⟨.unknownNamespace (rest.getD 0 ""), s⟩) := by
  unfold newPathAux
  have h1 : ¬("" :: rest).length = 1 := by simp only [List.length_cons]; omega
  have h2 : ¬(("" :: rest).headD "" ≠ "") := by simp
  have h3 : ¬("" :: rest).length < 3 := by simp only [List.length_cons]; omega
  simp only [if_neg h1, if_neg h2, if_neg h3]
  rfl

/-- On a rooted clean string, `NewPath` evaluates to the namespace switch
with the string itself as the `cleaned` value. -/
theorem newPath_eval_rooted (M : CidModel) (s : String) (segs : List (List Char))
    (hdata : s.data = '/' :: joinSegs segs) (hne : segs ≠ [])
    (hg : ∀ g ∈ segs, goodSeg g) :
    NewPath M s = newPathAux M s ("" :: segs.map (fun l => (⟨l⟩ : String))) s := by
  have hfix : cleanChars s.data = s.data := by
    rw [hdata]; exact cleanChars_rooted_fix segs hne hg
  have hsplit : splitSlashList (cleanChars s.data) = [] :: segs := by
    rw [hfix, hdata]
    exact splitSlashList_rooted segs hne (fun g hgm => (hg g hgm).2.1)
  have htrail : ¬s.data.getLastD ' ' = '/' := by
    rw [hdata]
    exact rooted_join_getLast segs hne hg
  show newPathAux M s
      ((splitSlashList (cleanChars s.data)).map (fun l => (⟨l⟩ : String)))
      (if s.data.getLastD ' ' = '/' then (⟨cleanChars s.data ++ ['/']⟩ : String)
        else ⟨cleanChars s.data⟩) = _
  rw [hsplit, if_neg htrail, hfix]
  rfl

/-- `Segments` of a rooted clean path are exactly its elements. -/
theorem segments_of_rooted (p : GoPath) (segs : List (List Char))
    (hdata : p.str.data = '/' :: joinSegs segs) (hne : segs ≠ [])
    (hg : ∀ g ∈ segs, goodSeg g) :
    p.Segments = segs.map (fun l => (⟨l⟩ : String)) := by
  unfold GoPath.Segments
  rw [hdata]
  unfold trimOneSuffixSlash
  rw [if_neg (rooted_join_getLast segs hne hg)]
  unfold trimOnePrefixSlash
  rw [if_pos (show ('/' :: joinSegs segs).headD ' ' = '/' from rfl)]
  show (splitSlashList (joinSegs segs)).map (fun l => (⟨l⟩ : String)) = _
  rw [splitSlashList_joinSegs segs hne (fun g hgm => (hg g hgm).2.1)]

theorem comps_headD_ne_empty (cl : List Char)
    (h : ((splitSlashList cl).map (fun l => (⟨l⟩ : String))).headD "" ≠ "") :
    cl ≠ [] ∧ cl.headD ' ' ≠ '/' := by
  cases cl with
  | nil => exact absurd rfl h
  | cons c t =>
    refine ⟨by simp, ?_⟩
    intro hc
    simp only [List.headD_cons] at hc
    rw [hc, splitSlashList_cons_slash] at h
    exact h rfl

/-- An accepted rooted path without a trailing slash comes from a cleaned
string of good slash-joined elements, and the components are the empty head
followed by those elements. -/
theorem cl_structure (s0 : String) (p : GoPath)
    (hstr : p.str = (if s0.data.getLastD ' ' = '/'
      then (⟨cleanChars s0.data ++ ['/']⟩ : String) else ⟨cleanChars s0.data⟩))
    (hroot : p.str.data.headD ' ' = '/')
    (htrail : p.str.data.getLastD ' ' ≠ '/')
    (hlen3 : ¬((splitSlashList (cleanChars s0.data)).map
      (fun l => (⟨l⟩ : String))).length < 3) :
    ∃ segs, segs ≠ [] ∧ (∀ g ∈ segs, goodSeg g) ∧ 2 ≤ segs.length ∧
      p.str.data = '/' :: joinSegs segs ∧
      (splitSlashList (cleanChars s0.data)).map (fun l => (⟨l⟩ : String))
        = "" :: segs.map (fun l => (⟨l⟩ : String)) := by
  by_cases htr : s0.data.getLastD ' ' = '/'
  · rw [if_pos htr] at hstr
    have hd : p.str.data = cleanChars s0.data ++ ['/'] := by rw [hstr]
    rw [hd, getLastD_append_right (cleanChars s0.data) ['/'] (by simp) ' '] at htrail
    exact absurd rfl htrail
  · rw [if_neg htr] at hstr
    have hd : p.str.data = cleanChars s0.data := by rw [hstr]
    have hclroot : (cleanChars s0.data).headD ' ' = '/' := hd ▸ hroot
    have hrc : rootedClean (cleanChars s0.data) := by
      by_cases hs0 : s0.data.headD ' ' = '/'
      · exact cleanChars_rooted s0.data hs0
      · exact absurd hclroot (cleanChars_unrooted s0.data hs0)
    rcases hrc with h | ⟨segs, hne, hgood, h⟩
    · rw [h] at hlen3
      simp [splitSlashList] at hlen3
    · have hcomps : (splitSlashList (cleanChars s0.data)).map (fun l => (⟨l⟩ : String))
          = "" :: segs.map (fun l => (⟨l⟩ : String)) := by
        rw [h, splitSlashList_rooted segs hne (fun g hgm => (hgood g hgm).2.1)]
        rfl
      refine ⟨segs, hne, hgood, ?_, hd.trans h, hcomps⟩
      rw [hcomps] at hlen3
      simp only [List.length_cons, List.length_map] at hlen3
      omega

/-- Inversion of acceptance for rooted, non-trailing-slash, non-"ipns"
paths: the accepted structure and the reparse data. -/
theorem newPath_ok_rooted_inversion (M : CidModel) (s0 : String) (p : GoPath)
    (hcid : ∀ (str : String) (c : Cid), M.decode str = some c →
      goodSeg (M.cidStr c).data ∧ M.decode (M.cidStr c) = some c)
    (hok : NewPath M s0 = .ok p)
    (hroot : p.str.data.headD ' ' = '/')
    (htrail : p.str.data.getLastD ' ' ≠ '/')
    (hns : p.nspace ≠ IPNSNamespace) :
    ∃ segs, segs ≠ [] ∧ (∀ g ∈ segs, goodSeg g) ∧ 2 ≤ segs.length ∧
      p.str.data = '/' :: joinSegs segs ∧ reparseData M p segs := by
  have hok2 : newPathAux M s0
      ((splitSlashList (cleanChars s0.data)).map (fun l => (⟨l⟩ : String)))
      (if s0.data.getLastD ' ' = '/' then (⟨cleanChars s0.data ++ ['/']⟩ : String)
        else ⟨cleanChars s0.data⟩) = .ok p := hok
  unfold newPathAux at hok2
  split at hok2
  · rename_i c heq
    have hdec0 : M.decode (((splitSlashList (cleanChars s0.data)).map
        (fun l => (⟨l⟩ : String))).headD "") = some c := by
      by_cases h1 : ((splitSlashList (cleanChars s0.data)).map
          (fun l => (⟨l⟩ : String))).length = 1
      · rw [if_pos h1] at heq; exact heq
      · rw [if_neg h1] at heq; simp at heq
    obtain ⟨hcg, hrt⟩ := hcid _ c hdec0
    split at hok2
    · simp only [Except.ok.injEq] at hok2
      rw [← hok2] at hns
      exact absurd rfl hns
    · simp only [Except.ok.injEq] at hok2
      refine ⟨["ipfs".data, (M.cidStr c).data], by simp, ?_, by simp, ?_, ?_⟩
      · intro g hgm
        rcases List.mem_cons.mp hgm with h | h
        · rw [h]; decide
        · rw [List.mem_singleton.mp h]; exact hcg
      · rw [← hok2]; rfl
      · left
        refine ⟨Or.inl rfl, ?_, ?_⟩
        · rw [← hok2]; rfl
        · show M.decode (M.cidStr c) = some p.root
          rw [← hok2]
          exact hrt
  · split at hok2
    · rename_i hhead
      split at hok2
      · rename_i root hdec
        simp only [Except.ok.injEq] at hok2
        obtain ⟨hne0, hne1⟩ := comps_headD_ne_empty (cleanChars s0.data) hhead
        have hd : p.str = (if s0.data.getLastD ' ' = '/'
            then (⟨cleanChars s0.data ++ ['/']⟩ : String) else ⟨cleanChars s0.data⟩) := by
          rw [← hok2]
        by_cases htr : s0.data.getLastD ' ' = '/'
        · rw [if_pos htr] at hd
          have : p.str.data = cleanChars s0.data ++ ['/'] := by rw [hd]
          rw [this, headD_of_append _ _ hne0] at hroot
          exact absurd hroot hne1
        · rw [if_neg htr] at hd
          have : p.str.data = cleanChars s0.data := by rw [hd]
          rw [this] at hroot
          exact absurd hroot hne1
      · simp at hok2
    · rename_i hhead
      split at hok2
      · simp at hok2
      · rename_i hlen3
        split at hok2
        · rename_i hcond
          split at hok2
          · simp at hok2
          · rename_i hne2
            split at hok2
            · rename_i root hdec
              simp only [Except.ok.injEq] at hok2
              have hstr : p.str = (if s0.data.getLastD ' ' = '/'
                  then (⟨cleanChars s0.data ++ ['/']⟩ : String)
                  else ⟨cleanChars s0.data⟩) := by rw [← hok2]
              obtain ⟨segs, hne, hgood, hlen, hdata, hcomps⟩ :=
                cl_structure s0 p hstr hroot htrail hlen3
              refine ⟨segs, hne, hgood, hlen, hdata, ?_⟩
              rw [hcomps] at hcond hdec
              have hg1 : ("" :: segs.map (fun l => (⟨l⟩ : String))).getD 1 ""
                  = (⟨segs.getD 0 []⟩ : String) := by
                show (segs.map (fun l => (⟨l⟩ : String))).getD 0 "" = _
                exact map_mk_getD segs 0 (by omega)
              have hg2 : ("" :: segs.map (fun l => (⟨l⟩ : String))).getD 2 ""
                  = (⟨segs.getD 1 []⟩ : String) := by
                show (segs.map (fun l => (⟨l⟩ : String))).getD 1 "" = _
                exact map_mk_getD segs 1 (by omega)
              rw [hg1] at hcond
              rw [hg2] at hdec
              left
              refine ⟨hcond, ?_, ?_⟩
              · rw [← hok2]
                show ((splitSlashList (cleanChars s0.data)).map
                  (fun l => (⟨l⟩ : String))).getD 1 "" = _
                rw [hcomps, hg1]
              · rw [hdec, ← hok2]
            · simp at hok2
        · rename_i hcond
          split at hok2
          · rename_i hcond2
            split at hok2
            · simp at hok2
            · simp only [Except.ok.injEq] at hok2
              have hstr : p.str = (if s0.data.getLastD ' ' = '/'
                  then (⟨cleanChars s0.data ++ ['/']⟩ : String)
                  else ⟨cleanChars s0.data⟩) := by rw [← hok2]
              obtain ⟨segs, hne, hgood, hlen, hdata, hcomps⟩ :=
                cl_structure s0 p hstr hroot htrail hlen3
              refine ⟨segs, hne, hgood, hlen, hdata, ?_⟩
              rw [hcomps] at hcond2
              have hg1 : ("" :: segs.map (fun l => (⟨l⟩ : String))).getD 1 ""
                  = (⟨segs.getD 0 []⟩ : String) := by
                show (segs.map (fun l => (⟨l⟩ : String))).getD 0 "" = _
                exact map_mk_getD segs 0 (by omega)
              have hg2 : ("" :: segs.map (fun l => (⟨l⟩ : String))).getD 2 ""
                  = (⟨segs.getD 1 []⟩ : String) := by
                show (segs.map (fun l => (⟨l⟩ : String))).getD 1 "" = _
                exact map_mk_getD segs 1 (by omega)
              rw [hg1] at hcond2
              right
              refine ⟨hcond2, ?_, ?_⟩
              · rw [← hok2]
              · rw [← hok2]
                show (match M.peerDecode
                    (((splitSlashList (cleanChars s0.data)).map
                      (fun l => (⟨l⟩ : String))).getD 2 "") with
                  | none => cidUndef
                  | some pid => M.peerToCid pid) = _
                rw [hcomps, hg2]
          · simp at hok2

theorem getD_mem (l : List (List Char)) (n : Nat) (h : n < l.length) :
    l.getD n [] ∈ l := by
  unfold List.getD
  rw [List.get?_eq_get h]
  exact List.get_mem l n h

/-- C9 (amended): joining a good segment onto a rooted, non-trailing-slash,
non-"ipns" accepted path succeeds and extends the string by "/" + segment,
preserving namespace and root. -/
theorem join_appends_good_segment (M : CidModel) (s0 s : String) (p : GoPath)
    (hcid : ∀ (str : String) (c : Cid), M.decode str = some c →
      goodSeg (M.cidStr c).data ∧ M.decode (M.cidStr c) = some c)
    (hok : NewPath M s0 = .ok p)
    (hroot : p.str.data.headD ' ' = '/')
    (htrail : p.str.data.getLastD ' ' ≠ '/')
    (hns : p.nspace ≠ IPNSNamespace)
    (hs : goodSeg s.data) :
    ∃ q : GoPath, Join M p [s] = .ok q ∧
      q.str = p.str ++ "/" ++ s ∧
      q.Namespace = p.Namespace ∧ q.Root = p.Root := by
  obtain ⟨segs, hne, hgood, hlen, hdata, hrep⟩ :=
    newPath_ok_rooted_inversion M s0 p hcid hok hroot htrail hns
  have hsegs : p.Segments = segs.map (fun l => (⟨l⟩ : String)) :=
    segments_of_rooted p segs hdata hne hgood
  have hne2 : segs ++ [s.data] ≠ [] := by simp
  have hgood2 : ∀ g ∈ segs ++ [s.data], goodSeg g := by
    intro g hgm
    rcases List.mem_append.mp hgm with h | h
    · exact hgood g h
    · rw [List.mem_singleton.mp h]; exact hs
  have hmapeq : segs.map (fun l => (⟨l⟩ : String)) ++ [s]
      = (segs ++ [s.data]).map (fun l => (⟨l⟩ : String)) := by
    rw [List.map_append]
    rfl
  set t : String := ⟨'/' :: strJoinSlash (segs.map (fun l => (⟨l⟩ : String)) ++ [s])⟩ with ht
  have htdata : t.data = '/' :: joinSegs (segs ++ [s.data]) := by
    show '/' :: strJoinSlash (segs.map (fun l => (⟨l⟩ : String)) ++ [s]) = _
    rw [hmapeq, strJoinSlash_map_mk]
  have hjoin : Join M p [s] = NewPath M t := by
    unfold Join NewPathFromSegments
    rw [hsegs]
    rw [if_neg ?hdrop]
    case hdrop =>
      rintro ⟨-, hh⟩
      cases hsg : segs with
      | nil => exact absurd hsg hne
      | cons g tt =>
        rw [hsg] at hh
        have hh2 : (⟨g⟩ : String) = "" := hh
        exact (hgood g (hsg ▸ List.mem_cons_self g tt)).1 (congrArg String.data hh2)
  have heval : Join M p [s] =
      (if ((segs ++ [s.data]).map (fun l => (⟨l⟩ : String))).getD 0 "" = IPFSNamespace ∨
          ((segs ++ [s.data]).map (fun l => (⟨l⟩ : String))).getD 0 "" = IPLDNamespace then
        if ((segs ++ [s.data]).map (fun l => (⟨l⟩ : String))).getD 1 "" = "" then
          .error ⟨.notEnoughComponents, t⟩
        else
          match M.decode (((segs ++ [s.data]).map (fun l => (⟨l⟩ : String))).getD 1 "") with
          | some root => .ok ⟨t, root, ((segs ++ [s.data]).map (fun l => (⟨l⟩ : String))).getD 0 ""⟩
          | none => .error ⟨.invalidCid, t⟩
      else if ((segs ++ [s.data]).map (fun l => (⟨l⟩ : String))).getD 0 "" = IPNSNamespace then
        if ((segs ++ [s.data]).map (fun l => (⟨l⟩ : String))).getD 1 "" = "" then
          .error ⟨.notEnoughComponents, t⟩
        else
          .ok ⟨t,
            (match M.peerDecode (((segs ++ [s.data]).map (fun l => (⟨l⟩ : String))).getD 1 "") with
             | none => cidUndef
             | some pid => M.peerToCid pid), IPFSNamespace⟩
      else .error ⟨.unknownNamespace (((segs ++ [s.data]).map (fun l => (⟨l⟩ : String))).getD 0 ""), t⟩) := by
    rw [hjoin, newPath_eval_rooted M _ (segs ++ [s.data]) htdata hne2 hgood2,
      newPathAux_switch M _ _ _ (by simp only [List.length_map, List.length_append]; omega)]
  have hr0 : ((segs ++ [s.data]).map (fun l => (⟨l⟩ : String))).getD 0 ""
      = (⟨segs.getD 0 []⟩ : String) := by
    rw [map_mk_getD _ 0 (by simp only [List.length_append]; omega),
      List.getD_append segs [s.data] [] 0 (by omega)]
  have hr1 : ((segs ++ [s.data]).map (fun l => (⟨l⟩ : String))).getD 1 ""
      = (⟨segs.getD 1 []⟩ : String) := by
    rw [map_mk_getD _ 1 (by simp only [List.length_append]; omega),
      List.getD_append segs [s.data] [] 1 (by omega)]
  have hseg1ne : (⟨segs.getD 1 []⟩ : String) ≠ "" :=
    mk_ne_empty _ (hgood _ (getD_mem segs 1 (by omega))).1
  have hstr_eq : t = p.str ++ "/" ++ s := by
    apply String.ext
    rw [htdata, String.data_append, String.data_append,
      joinSegs_append_single segs s.data hne, hdata]
    simp
  rw [hr0, hr1] at heval
  rcases hrep with ⟨hcond, hnsp, hdec⟩ | ⟨hcond, hnsp, hroote⟩
  · rw [if_pos hcond, if_neg hseg1ne, hdec] at heval
    refine ⟨_, heval, hstr_eq, ?_, rfl⟩
    show (⟨segs.getD 0 []⟩ : String) = p.Namespace
    exact hnsp.symm
  · rw [if_neg ?hni, if_pos hcond, if_neg hseg1ne] at heval
    case hni =>
      rw [hcond]
      decide
    refine ⟨_, heval, hstr_eq, ?_, ?_⟩
    · show IPFSNamespace = p.Namespace
      exact hnsp.symm
    · show _ = p.Root
      exact hroote.symm

/-- C9 counterexample: the original claim fails: "QmA/a" is accepted by
`NewPath` (a bare-CID relative path without trailing slash) and "b" is a
non-empty slash-free segment, yet `Join` rejects the combination with
"unknown namespace". -/
theorem join_bare_cid_fails :
    NewPath M0 "QmA/a" = .ok ⟨"QmA/a", ⟨112, "QmA"⟩, IPFSNamespace⟩ ∧
    "QmA/a".data.getLastD ' ' ≠ '/' ∧
    "b".data ≠ [] ∧ '/' ∉ "b".data ∧
    Join M0 ⟨"QmA/a", ⟨112, "QmA"⟩, IPFSNamespace⟩ ["b"]
      = .error ⟨.unknownNamespace "QmA", ⟨'/' :: "QmA/a/b".data⟩⟩ := by
  have hfix1 : cleanChars "QmA/a".data = "QmA/a".data := by
    have h : "QmA/a".data = joinSegs ["QmA".data, "a".data] := by decide
    rw [h]
    exact cleanChars_unrooted_fix _ (by simp) (by decide)
  have hok : NewPath M0 "QmA/a" = .ok ⟨"QmA/a", ⟨112, "QmA"⟩, IPFSNamespace⟩ := by
    unfold NewPath
    rw [hfix1]
    decide
  have hfix3 : cleanChars ('/' :: "QmA/a/b".data) = '/' :: "QmA/a/b".data := by
    have h : ('/' :: "QmA/a/b".data)
        = '/' :: joinSegs ["QmA".data, "a".data, "b".data] := by decide
    rw [h]
    exact cleanChars_rooted_fix _ (by simp) (by decide)
  have hseg : (⟨"QmA/a", ⟨112, "QmA"⟩, IPFSNamespace⟩ : GoPath).Segments
      = ["QmA", "a"] := by decide
  have hstr : (⟨'/' :: strJoinSlash (["QmA", "a"] ++ ["b"])⟩ : String)
      = ⟨'/' :: "QmA/a/b".data⟩ := by decide
  have hjoin : Join M0 ⟨"QmA/a", ⟨112, "QmA"⟩, IPFSNamespace⟩ ["b"]
      = NewPath M0 ⟨'/' :: "QmA/a/b".data⟩ := by
    unfold Join NewPathFromSegments
    rw [hseg, if_neg (by decide)]
    show NewPath M0 (⟨'/' :: strJoinSlash (["QmA", "a"] ++ ["b"])⟩ : String) = _
    rw [hstr]
  have hfinal : NewPath M0 (⟨'/' :: "QmA/a/b".data⟩ : String)
      = .error ⟨.unknownNamespace "QmA", ⟨'/' :: "QmA/a/b".data⟩⟩ := by
    unfold NewPath
    rw [show ((⟨'/' :: "QmA/a/b".data⟩ : String)).data = '/' :: "QmA/a/b".data from rfl]
    rw [hfix3]
    decide
  exact ⟨hok, by decide, by decide, by decide, hjoin.trans hfinal⟩

theorem join_appends_good_segment_witness :
    NewPath M0 "/ipfs/QmA" = .ok ⟨"/ipfs/QmA", ⟨112, "QmA"⟩, IPFSNamespace⟩ ∧
    (∃ q : GoPath,
      Join M0 ⟨"/ipfs/QmA", ⟨112, "QmA"⟩, IPFSNamespace⟩ ["b"] = .ok q ∧
      q.str = "/ipfs/QmA" ++ "/" ++ "b" ∧
      q.Namespace = (⟨"/ipfs/QmA", ⟨112, "QmA"⟩, IPFSNamespace⟩ : GoPath).Namespace ∧
      q.Root = (⟨"/ipfs/QmA", ⟨112, "QmA"⟩, IPFSNamespace⟩ : GoPath).Root) := by
  have hcid : ∀ (str : String) (c : Cid), M0.decode str = some c →
      goodSeg (M0.cidStr c).data ∧ M0.decode (M0.cidStr c) = some c := by
    intro str c h
    show goodSeg (M0.cidStr c).data ∧ M0.decode (M0.cidStr c) = some c
    unfold M0 at h ⊢
    simp only at h ⊢
    by_cases h1 : str = "QmA"
    · rw [if_pos h1] at h
      have hc : c = ⟨112, "QmA"⟩ := by
        have := Option.some.inj h
        rw [← this]
      rw [hc]
      exact ⟨by decide, by decide⟩
    · rw [if_neg h1] at h
      by_cases h2 : str = "QkK"
      · rw [if_pos h2] at h
        have hc : c = ⟨114, "QkK"⟩ := by
          have := Option.some.inj h
          rw [← this]
        rw [hc]
        exact ⟨by decide, by decide⟩
      · rw [if_neg h2] at h
        simp at h
  have hfix : cleanChars "/ipfs/QmA".data = "/ipfs/QmA".data := by
    have h : "/ipfs/QmA".data = '/' :: joinSegs ["ipfs".data, "QmA".data] := by decide
    rw [h]
    exact cleanChars_rooted_fix _ (by simp) (by decide)
  have hok : NewPath M0 "/ipfs/QmA" = .ok ⟨"/ipfs/QmA", ⟨112, "QmA"⟩, IPFSNamespace⟩ := by
    unfold NewPath
    rw [hfix]
    decide
  exact ⟨hok, join_appends_good_segment M0 "/ipfs/QmA" "b"
    ⟨"/ipfs/QmA", ⟨112, "QmA"⟩, IPFSNamespace⟩ hcid hok
    (by decide) (by decide) (by decide) (by decide)⟩

/-! ### Wantlist and ledger lemmas (C2, C4, C8) -/

theorem wlUpsert_idem (cid : ContentID) (r : WLRecord) : ∀ w : Wantlist,
    wlUpsert cid r (wlUpsert cid r w) = wlUpsert cid r w := by
  intro w
  induction w with
  | nil => simp [wlUpsert]
  | cons kv rest ih =>
    by_cases h : kv.1 = cid
    · simp only [wlUpsert, if_pos h]
      simp [wlUpsert]
    · simp only [wlUpsert, if_neg h, ih]

theorem wlLookup_remove (cid : ContentID) : ∀ w : Wantlist,
    wlLookup cid (wlRemove cid w) = none := by
  intro w
  induction w with
  | nil => rfl
  | cons kv rest ih =>
    by_cases h : kv.1 = cid
    · unfold wlRemove at ih ⊢
      rw [List.filter_cons]
      simp only [h]
      simpa using ih
    · unfold wlRemove at ih ⊢
      rw [List.filter_cons]
      have hb : (kv.1 != cid) = true := by simpa using h
      rw [if_pos (by simp [hb])]
      unfold wlLookup at ih ⊢
      rw [List.find?_cons]
      have : (kv.1 == cid) = false := by simpa using h
      rw [this]
      exact ih

/-- C2: merging the same non-cancel WantEntry twice equals merging it once,
and merging a cancel entry removes the ContentID from the Wantlist. -/
theorem wantlistMerge_idem_and_cancel (w : Wantlist) (e : WantEntry) :
    (e.cancel = false → wantlistMerge (wantlistMerge w e) e = wantlistMerge w e) ∧
    (e.cancel = true → wlLookup e.cid (wantlistMerge w e) = none) := by
  constructor
  · intro hc
    unfold wantlistMerge
    rw [hc]
    simp only [Bool.false_eq_true, if_false]
    exact wlUpsert_idem e.cid ⟨e.priority, e.wantType⟩ w
  · intro hc
    unfold wantlistMerge
    rw [hc]
    simp only [if_true]
    exact wlLookup_remove e.cid w

theorem wantlistMerge_idem_and_cancel_witness :
    (wantlistMerge (wantlistMerge [(5, ⟨1, .wantHave⟩)] ⟨7, 3, .wantBlock, false, true⟩)
        ⟨7, 3, .wantBlock, false, true⟩
      = wantlistMerge [(5, ⟨1, .wantHave⟩)] ⟨7, 3, .wantBlock, false, true⟩) ∧
    (wlLookup 5 (wantlistMerge [(5, ⟨1, .wantHave⟩)] ⟨5, 3, .wantBlock, true, true⟩) = none) :=
  ⟨(wantlistMerge_idem_and_cancel [(5, ⟨1, .wantHave⟩)] ⟨7, 3, .wantBlock, false, true⟩).1 rfl,
   (wantlistMerge_idem_and_cancel [(5, ⟨1, .wantHave⟩)] ⟨5, 3, .wantBlock, true, true⟩).2 rfl⟩

/-- C4: DebtRatio returns exactly BytesSent/(BytesReceived+ε) for a present
ledger entry, the neutral default ratio for a peer with no history, and is a
total function (it never fails). -/
theorem debtRatio_spec (L : PeerLedger) (p : PeerID) :
    (∀ e : LedgerEntry, ledgerLookup L p = some e →
      debtRatioOf L p = (e.bytesSent : ℚ) / ((e.bytesReceived : ℚ) + debtEpsilon)) ∧
    (ledgerLookup L p = none → debtRatioOf L p = neutralDebtRatio) := by
  constructor
  · intro e he
    unfold debtRatioOf
    rw [he]
  · intro he
    unfold debtRatioOf
    rw [he]

theorem debtRatio_spec_witness :
    (ledgerLookup [("peerA", ⟨6, 2, 1, 1⟩)] "peerA" = some ⟨6, 2, 1, 1⟩ ∧
      debtRatioOf [("peerA", ⟨6, 2, 1, 1⟩)] "peerA" = (6 : ℚ) / ((2 : ℚ) + debtEpsilon)) ∧
    (ledgerLookup [("peerA", ⟨6, 2, 1, 1⟩)] "peerB" = none ∧
      debtRatioOf [("peerA", ⟨6, 2, 1, 1⟩)] "peerB" = neutralDebtRatio) :=
  ⟨⟨by decide, (debtRatio_spec [("peerA", ⟨6, 2, 1, 1⟩)] "peerA").1 ⟨6, 2, 1, 1⟩ (by decide)⟩,
   ⟨by decide, (debtRatio_spec [("peerA", ⟨6, 2, 1, 1⟩)] "peerB").2 (by decide)⟩⟩

theorem recordReceipt_sent_le (r : Receipt) (p : PeerID) : ∀ L : PeerLedger,
    sentAt L p ≤ sentAt (recordReceipt L r) p ∧ recvAt L p ≤ recvAt (recordReceipt L r) p := by
  intro L
  induction L with
  | nil =>
    simp [sentAt, recvAt, ledgerLookup]
  | cons kv rest ih =>
    by_cases h : kv.1 = r.peer
    · unfold recordReceipt
      rw [if_pos h]
      unfold sentAt recvAt ledgerLookup
      rw [List.find?_cons, List.find?_cons]
      by_cases hp : kv.1 == p
      · rw [hp]
        simp [addReceipt]
      · rw [Bool.eq_false_iff.mpr hp]
        exact ⟨le_rfl, le_rfl⟩
    · unfold recordReceipt
      rw [if_neg h]
      unfold sentAt recvAt ledgerLookup
      rw [List.find?_cons, List.find?_cons]
      by_cases hp : kv.1 == p
      · rw [hp]
        exact ⟨le_rfl, le_rfl⟩
      · rw [Bool.eq_false_iff.mpr hp]
        exact ih

/-- C8: over any sequence of RecordReceipt operations the recorded BytesSent
and BytesReceived of every peer never decrease, and RecordReceipt is a total
function (it never errors). -/
theorem recordReceipt_monotone (rs : List Receipt) (p : PeerID) : ∀ L : PeerLedger,
    sentAt L p ≤ sentAt (rs.foldl recordReceipt L) p ∧
    recvAt L p ≤ recvAt (rs.foldl recordReceipt L) p := by
  induction rs with
  | nil => intro L; exact ⟨le_rfl, le_rfl⟩
  | cons r rest ih =>
    intro L
    have h1 := recordReceipt_sent_le r p L
    have h2 := ih (recordReceipt L r)
    exact ⟨le_trans h1.1 h2.1, le_trans h1.2 h2.2⟩

theorem mem_insertBy (r : EngineTask → EngineTask → Bool) (x t : EngineTask) :
    ∀ l, t ∈ insertBy r x l → t = x ∨ t ∈ l := by
  intro l
  induction l with
  | nil => intro h; simpa [insertBy] using h
  | cons y ys ih =>
    intro h
    unfold insertBy at h
    split at h
    · rcases List.mem_cons.mp h with h1 | h1
      · exact Or.inl h1
      · exact Or.inr h1
    · rcases List.mem_cons.mp h with h1 | h1
      · exact Or.inr (h1 ▸ List.mem_cons_self y ys)
      · rcases ih h1 with h2 | h2
        · exact Or.inl h2
        · exact Or.inr (List.mem_cons_of_mem y h2)

theorem mem_sortTasks (r : EngineTask → EngineTask → Bool) (t : EngineTask) :
    ∀ l, t ∈ sortTasks r l → t ∈ l := by
  intro l
  induction l with
  | nil => intro h; simpa [sortTasks] using h
  | cons x xs ih =>
    intro h
    unfold sortTasks at h
    rcases mem_insertBy r x t _ h with h1 | h1
    · exact h1 ▸ List.mem_cons_self x xs
    · exact List.mem_cons_of_mem x (ih h1)

theorem mem_selectWithin (budget : Nat) (t : EngineTask) :
    ∀ (used : Nat) (l : List EngineTask), t ∈ selectWithin budget used l → t ∈ l := by
  intro used l
  induction l generalizing used with
  | nil => intro h; simpa [selectWithin] using h
  | cons x xs ih =>
    intro h
    unfold selectWithin at h
    split at h
    · simp at h
    · rcases List.mem_cons.mp h with h1 | h1
      · exact h1 ▸ List.mem_cons_self x xs
      · exact List.mem_cons_of_mem x (ih _ h1)

/-- C3: after `ReceiveCancel(p, [X])` no task for (p, X) remains in the
queue, and `NextTasks(p, budget)` never returns a task for X, for any
budget. -/
theorem receiveCancel_removes (cmp : EngineTask → EngineTask → Bool)
    (st : EngineState) (p : PeerID) (X : ContentID) (budget : Nat) :
    (∀ t ∈ (receiveCancel st p [X]).queue, ¬(t.peer = p ∧ t.cid = X)) ∧
    (∀ t ∈ nextTasks cmp (receiveCancel st p [X]) p budget, t.cid ≠ X) := by
  have hq : ∀ t ∈ (receiveCancel st p [X]).queue, ¬(t.peer = p ∧ t.cid = X) := by
    intro t ht
    unfold receiveCancel at ht
    simp only [List.mem_filter] at ht
    rintro ⟨hp, hx⟩
    have := ht.2
    simp [hp, hx] at this
  refine ⟨hq, ?_⟩
  intro t ht hx
  have h1 := mem_selectWithin budget t 0 _ ht
  have h2 := mem_sortTasks (taskBefore cmp) t _ h1
  unfold pendingFor at h2
  simp only [List.mem_filter] at h2
  exact hq t h2.1 ⟨by simpa using h2.2, hx⟩

theorem receiveCancel_removes_witness :
    ¬((⟨"peerA", 3, 4, .wantBlock, 1⟩ : EngineTask).peer = "peerA" ∧
      (⟨"peerA", 3, 4, .wantBlock, 1⟩ : EngineTask).cid = 9) ∧
    (⟨"peerA", 3, 4, .wantBlock, 1⟩ : EngineTask).cid ≠ 9 :=
  ⟨(receiveCancel_removes (fun _ _ => true)
      ⟨[], [⟨"peerA", 9, 4, .wantBlock, 1⟩, ⟨"peerA", 3, 4, .wantBlock, 1⟩]⟩ "peerA" 9 100).1
      ⟨"peerA", 3, 4, .wantBlock, 1⟩ (by decide),
   (receiveCancel_removes (fun _ _ => true)
      ⟨[], [⟨"peerA", 9, 4, .wantBlock, 1⟩, ⟨"peerA", 3, 4, .wantBlock, 1⟩]⟩ "peerA" 9 100).2
      ⟨"peerA", 3, 4, .wantBlock, 1⟩ (by decide)⟩

theorem taskBefore_total (cmp : EngineTask → EngineTask → Bool)
    (htotal : ∀ a b, cmp a b = true ∨ cmp b a = true) :
    ∀ a b, taskBefore cmp a b = true ∨ taskBefore cmp b a = true := by
  intro a b
  unfold taskBefore
  split_ifs <;> first | (left; rfl) | (right; rfl) | omega | exact htotal a b

theorem taskBefore_trans (cmp : EngineTask → EngineTask → Bool)
    (htrans : ∀ a b c, cmp a b = true → cmp b c = true → cmp a c = true) :
    ∀ a b c, taskBefore cmp a b = true → taskBefore cmp b c = true →
      taskBefore cmp a c = true := by
  intro a b c hab hbc
  unfold taskBefore at hab hbc ⊢
  split_ifs at hab hbc ⊢ <;> first | rfl | omega | exact htrans a b c hab hbc

theorem insertBy_pairwise (r : EngineTask → EngineTask → Bool)
    (htotal : ∀ a b, r a b = true ∨ r b a = true)
    (htrans : ∀ a b c, r a b = true → r b c = true → r a c = true)
    (x : EngineTask) :
    ∀ l, l.Pairwise (fun a b => r a b = true) →
      (insertBy r x l).Pairwise (fun a b => r a b = true) := by
  intro l
  induction l with
  | nil => intro _; simp [insertBy]
  | cons y ys ih =>
    intro hl
    rw [List.pairwise_cons] at hl
    unfold insertBy
    split
    · rename_i hxy
      rw [List.pairwise_cons]
      refine ⟨?_, List.pairwise_cons.mpr hl⟩
      intro z hz
      rcases List.mem_cons.mp hz with h1 | h1
      · rw [h1]; exact hxy
      · exact htrans x y z hxy (hl.1 z h1)
    · rename_i hxy
      have hyx : r y x = true := by
        rcases htotal x y with h | h
        · exact absurd h hxy
        · exact h
      rw [List.pairwise_cons]
      refine ⟨?_, ih hl.2⟩
      intro z hz
      rcases mem_insertBy r x z ys hz with h1 | h1
      · rw [h1]; exact hyx
      · exact hl.1 z h1

theorem sortTasks_pairwise (r : EngineTask → EngineTask → Bool)
    (htotal : ∀ a b, r a b = true ∨ r b a = true)
    (htrans : ∀ a b c, r a b = true → r b c = true → r a c = true) :
    ∀ l, (sortTasks r l).Pairwise (fun a b => r a b = true) := by
  intro l
  induction l with
  | nil => simp [sortTasks]
  | cons x xs ih =>
    unfold sortTasks
    exact insertBy_pairwise r htotal htrans x _ ih

theorem selectWithin_isPrefix (budget : Nat) :
    ∀ (l : List EngineTask) (used : Nat), ∃ rest, selectWithin budget used l ++ rest = l := by
  intro l
  induction l with
  | nil => intro used; exact ⟨[], rfl⟩
  | cons t ts ih =>
    intro used
    unfold selectWithin
    split
    · exact ⟨t :: ts, rfl⟩
    · obtain ⟨rest, hrest⟩ := ih (used + t.size)
      exact ⟨rest, by rw [List.cons_append, hrest]⟩

theorem sizeSum_cons (t : EngineTask) (l : List EngineTask) :
    sizeSum (t :: l) = t.size + sizeSum l := by
  simp [sizeSum]

theorem selectWithin_le_budget (budget : Nat) :
    ∀ (l : List EngineTask) (used : Nat), used ≤ budget →
      used + sizeSum (selectWithin budget used l) ≤ budget := by
  intro l
  induction l with
  | nil => intro used h; simpa [selectWithin, sizeSum] using h
  | cons t ts ih =>
    intro used h
    unfold selectWithin
    split
    · simpa [sizeSum] using h
    · rename_i hle
      have h2 := ih (used + t.size) (by omega)
      rw [sizeSum_cons]
      omega

theorem selectWithin_maximal (budget : Nat) :
    ∀ (l : List EngineTask) (used : Nat) (t : EngineTask),
      l.get? (selectWithin budget used l).length = some t →
      budget < used + sizeSum (selectWithin budget used l) + t.size := by
  intro l
  induction l with
  | nil => intro used t h; simp at h
  | cons x xs ih =>
    intro used t h
    by_cases hgt : budget < used + x.size
    · rw [show selectWithin budget used (x :: xs) = [] from by
        unfold selectWithin; rw [if_pos hgt]] at h ⊢
      simp only [List.length_nil, List.get?] at h
      cases h
      simpa [sizeSum] using hgt
    · have heq : selectWithin budget used (x :: xs)
          = x :: selectWithin budget (used + x.size) xs := by
        simp only [selectWithin]; rw [if_neg hgt]
      rw [heq] at h ⊢
      simp only [List.length_cons, List.get?] at h
      have h2 := ih (used + x.size) t h
      rw [sizeSum_cons]
      omega

/-- C5: `NextTasks(peer, budget)` is ordered by the candidate order (WantHave
before WantBlock, then priority descending, then the TaskComparator policy),
is a prefix of the fully sorted pending list, stays within the byte budget,
and is the maximal such prefix (the next sorted task would exceed it). -/
theorem nextTasks_spec (cmp : EngineTask → EngineTask → Bool) (st : EngineState)
    (p : PeerID) (budget : Nat)
    (htotal : ∀ a b, cmp a b = true ∨ cmp b a = true)
    (htrans : ∀ a b c, cmp a b = true → cmp b c = true → cmp a c = true) :
    (nextTasks cmp st p budget).Pairwise (fun a b => taskBefore cmp a b = true) ∧
    (∃ rest, nextTasks cmp st p budget ++ rest
      = sortTasks (taskBefore cmp) (pendingFor st p)) ∧
    sizeSum (nextTasks cmp st p budget) ≤ budget ∧
    (∀ t, (sortTasks (taskBefore cmp) (pendingFor st p)).get?
        (nextTasks cmp st p budget).length = some t →
      budget < sizeSum (nextTasks cmp st p budget) + t.size) := by
  have hsorted := sortTasks_pairwise (taskBefore cmp)
    (taskBefore_total cmp htotal) (taskBefore_trans cmp htrans) (pendingFor st p)
  obtain ⟨rest, hrest⟩ :=
    selectWithin_isPrefix budget (sortTasks (taskBefore cmp) (pendingFor st p)) 0
  refine ⟨?_, ⟨rest, hrest⟩, ?_, ?_⟩
  · rw [← hrest] at hsorted
    exact (List.pairwise_append.mp hsorted).1
  · have := selectWithin_le_budget budget (sortTasks (taskBefore cmp) (pendingFor st p)) 0
      (by omega)
    simpa using this
  · intro t ht
    have h3 := selectWithin_maximal budget (sortTasks (taskBefore cmp) (pendingFor st p)) 0 t ht
    show budget < sizeSum (selectWithin budget 0
      (sortTasks (taskBefore cmp) (pendingFor st p))) + t.size
    omega

theorem nextTasks_spec_witness :
    ((nextTasks (fun _ _ => true)
        ⟨[], [⟨"peerA", 1, 4, .wantBlock, 1⟩, ⟨"peerA", 2, 3, .wantHave, 1⟩]⟩
        "peerA" 5).Pairwise (fun a b => taskBefore (fun _ _ => true) a b = true)) ∧
    (∃ rest, nextTasks (fun _ _ => true)
        ⟨[], [⟨"peerA", 1, 4, .wantBlock, 1⟩, ⟨"peerA", 2, 3, .wantHave, 1⟩]⟩
        "peerA" 5 ++ rest
      = sortTasks (taskBefore (fun _ _ => true))
        (pendingFor ⟨[], [⟨"peerA", 1, 4, .wantBlock, 1⟩, ⟨"peerA", 2, 3, .wantHave, 1⟩]⟩
          "peerA")) ∧
    sizeSum (nextTasks (fun _ _ => true)
        ⟨[], [⟨"peerA", 1, 4, .wantBlock, 1⟩, ⟨"peerA", 2, 3, .wantHave, 1⟩]⟩
        "peerA" 5) ≤ 5 ∧
    5 < sizeSum (nextTasks (fun _ _ => true)
        ⟨[], [⟨"peerA", 1, 4, .wantBlock, 1⟩, ⟨"peerA", 2, 3, .wantHave, 1⟩]⟩
        "peerA" 5) + (⟨"peerA", 1, 4, .wantBlock, 1⟩ : EngineTask).size := by
  have h := nextTasks_spec (fun _ _ => true)
    ⟨[], [⟨"peerA", 1, 4, .wantBlock, 1⟩, ⟨"peerA", 2, 3, .wantHave, 1⟩]⟩ "peerA" 5
    (fun _ _ => Or.inl rfl) (fun _ _ _ _ _ => rfl)
  exact ⟨h.1, h.2.1, h.2.2.1, h.2.2.2 ⟨"peerA", 1, 4, .wantBlock, 1⟩ (by decide)⟩

theorem rrInv_step (s : RRState) (h : rrInv s) : rrInv (rrStep s) := by
  rcases h with ⟨h1, h2, h3⟩ | ⟨h1, h2, h3⟩
  · rw [rrStep, if_pos h2]
    exact Or.inr ⟨show s.servedA + 1 = s.servedB + 1 by omega,
      show s.lastB < s.clock from h3,
      show s.clock < s.clock + 1 by omega⟩
  · rw [rrStep, if_neg (by omega)]
    exact Or.inl ⟨show s.servedA = s.servedB + 1 from h1,
      show s.lastA ≤ s.clock by omega,
      show s.clock < s.clock + 1 by omega⟩

theorem rrInv_run (N : Nat) : rrInv (rrRun N) := by
  induction N with
  | zero => exact Or.inl ⟨rfl, Nat.le_refl 0, Nat.zero_lt_one⟩
  | succ n ih => exact rrInv_step _ ih

/-- C6: for two peers with equal entry priorities and zero debt and
continuously pending tasks, over any sequence of N successive budget-limited
NextTasks calls the absolute difference between the number of tasks served to
A and the number served to B is at most 1: neither peer is starved. -/
theorem rr_fair (N : Nat) :
    (rrRun N).servedA - (rrRun N).servedB ≤ 1 ∧
    (rrRun N).servedB - (rrRun N).servedA ≤ 1 := by
  rcases rrInv_run N with ⟨h1, _, _⟩ | ⟨h1, _, _⟩ <;> omega

theorem assocSessions_setSessions (c : ContentID) (l : List SessionID)
    (c2 : ContentID) :
    ∀ S : List (ContentID × List SessionID),
      assocSessions (setSessions S c l) c2 =
        if c2 = c then l else assocSessions S c2 := by
  intro S
  induction S with
  | nil => simp only [setSessions, assocSessions]
  | cons q S ih =>
    obtain ⟨c1, l1⟩ := q
    by_cases h : c = c1
    · rw [setSessions, if_pos h]
      by_cases h2 : c2 = c
      · rw [assocSessions, if_pos h2, if_pos h2]
      · rw [assocSessions, if_neg h2, if_neg h2, assocSessions,
          if_neg (h ▸ h2)]
    · rw [setSessions, if_neg h]
      by_cases h2 : c2 = c1
      · rw [assocSessions, if_pos h2,
          if_neg (fun hh => h (hh.symm.trans h2)), assocSessions, if_pos h2]
      · rw [assocSessions, if_neg h2, ih, assocSessions, if_neg h2]

theorem wantSessions_self (st : DedupState) (s : SessionID) (c : ContentID) :
    s ∈ assocSessions (wantSessions st s c) c := by
  rw [wantSessions]
  by_cases hs : s ∈ assocSessions st.sessions c
  · rw [if_pos hs]; exact hs
  · rw [if_neg hs, assocSessions_setSessions, if_pos rfl]
    exact List.mem_cons_self s _

theorem wantSessions_other (st : DedupState) (s : SessionID) (c : ContentID)
    (c2 : ContentID) (hc : c2 ≠ c) :
    assocSessions (wantSessions st s c) c2 = assocSessions st.sessions c2 := by
  rw [wantSessions]
  by_cases hs : s ∈ assocSessions st.sessions c
  · rw [if_pos hs]
  · rw [if_neg hs, assocSessions_setSessions, if_neg hc]

theorem countWB_append_wb (w : List WireMsg) (c : ContentID) (p : PeerID)
    (c2 : ContentID) (p2 : PeerID) :
    countWB (w ++ [WireMsg.wantBlockMsg c p]) c2 p2 =
      countWB w c2 p2 + (if c2 = c ∧ p2 = p then 1 else 0) := by
  rw [countWB, countWB, List.count_append]
  congr 1
  by_cases h : c2 = c ∧ p2 = p
  · obtain ⟨h1, h2⟩ := h
    subst h1; subst h2
    rw [if_pos ⟨rfl, rfl⟩]
    simp
  · rw [if_neg h, List.count_eq_zero]
    intro hm
    simp only [List.mem_singleton, WireMsg.wantBlockMsg.injEq] at hm
    exact h hm

theorem countCancel_append_wb (w : List WireMsg) (c : ContentID) (p : PeerID)
    (c2 : ContentID) (p2 : PeerID) :
    countCancel (w ++ [WireMsg.wantBlockMsg c p]) c2 p2 = countCancel w c2 p2 := by
  rw [countCancel, countCancel, List.count_append]
  have h0 : List.count (WireMsg.cancelMsg c2 p2) [WireMsg.wantBlockMsg c p] = 0 := by
    rw [List.count_eq_zero]
    intro hm
    simp at hm
  rw [h0]
  omega

theorem countWB_append_cancels (w : List WireMsg) (c : ContentID)
    (A : List (ContentID × PeerID)) (c2 : ContentID) (p2 : PeerID) :
    countWB (w ++ (A.filter (fun q => q.1 == c)).map
        (fun q => WireMsg.cancelMsg q.1 q.2)) c2 p2 = countWB w c2 p2 := by
  rw [countWB, countWB, List.count_append]
  have h0 : List.count (WireMsg.wantBlockMsg c2 p2)
      ((A.filter (fun q => q.1 == c)).map (fun q => WireMsg.cancelMsg q.1 q.2))
        = 0 := by
    rw [List.count_eq_zero]
    intro hm
    simp only [List.mem_map] at hm
    obtain ⟨q, _, hq⟩ := hm
    simp at hq
  rw [h0]
  omega

theorem count_cancel_map (c : ContentID) (c2 : ContentID) (p2 : PeerID) :
    ∀ A : List (ContentID × PeerID), A.Nodup →
      List.count (WireMsg.cancelMsg c2 p2)
        ((A.filter (fun q => q.1 == c)).map (fun q => WireMsg.cancelMsg q.1 q.2))
      = if c2 = c ∧ (c2, p2) ∈ A then 1 else 0 := by
  intro A
  induction A with
  | nil => intro _; simp
  | cons q A ih =>
    obtain ⟨a, b⟩ := q
    intro hnd
    obtain ⟨hq, hnd2⟩ := List.nodup_cons.mp hnd
    by_cases hqc : a = c
    · rw [List.filter_cons_of_pos (by simpa using hqc), List.map_cons,
        List.count_cons, ih hnd2]
      by_cases hqe : c2 = a ∧ p2 = b
      · obtain ⟨ha, hb⟩ := hqe
        subst ha; subst hb
        rw [if_neg (fun hh => hq hh.2)]
        simp [hqc]
      · have hmid2 : (WireMsg.cancelMsg a b == WireMsg.cancelMsg c2 p2) = false := by
          rw [beq_eq_false_iff_ne]
          intro hm
          simp only [WireMsg.cancelMsg.injEq] at hm
          exact hqe ⟨hm.1.symm, hm.2.symm⟩
        rw [hmid2, if_neg (fun hh => Bool.false_ne_true hh)]
        by_cases hfull : c2 = c ∧ (c2, p2) ∈ A
        · rw [if_pos hfull, if_pos ⟨hfull.1, List.mem_cons_of_mem _ hfull.2⟩]
        · have hnot : ¬ (c2 = c ∧ (c2, p2) ∈ (a, b) :: A) := by
            rintro ⟨h1, h2⟩
            rcases List.mem_cons.mp h2 with he | hm
            · rw [Prod.mk.injEq] at he
              exact hqe he
            · exact hfull ⟨h1, hm⟩
          rw [if_neg hfull, if_neg hnot]
    · rw [List.filter_cons_of_neg (by simpa using hqc), ih hnd2]
      simp only [List.mem_cons, Prod.mk.injEq]
      by_cases hfull : c2 = c ∧ (c2, p2) ∈ A
      · rw [if_pos hfull, if_pos ⟨hfull.1, Or.inr hfull.2⟩]
      · have hnot : ¬ (c2 = c ∧ ((c2 = a ∧ p2 = b) ∨ (c2, p2) ∈ A)) := by
          rintro ⟨h1, h2 | h3⟩
          · exact hqc (h2.1.symm.trans h1)
          · exact hfull ⟨h1, h3⟩
        rw [if_neg hfull, if_neg hnot]

theorem erase_eq_nil_cases (l : List SessionID) (s : SessionID)
    (h : l.erase s = []) : l = [] ∨ l = [s] := by
  cases l with
  | nil => exact Or.inl rfl
  | cons a t =>
    by_cases ha : a = s
    · subst ha
      rw [List.erase_cons_head] at h
      subst h
      exact Or.inr rfl
    · rw [List.erase_cons_tail (by simpa using ha)] at h
      exact absurd h (List.cons_ne_nil a _)

theorem dedupInv_step (st : DedupState) (op : DedupOp) (h : DedupInv st) :
    DedupInv (dedupStep st op) := by
  obtain ⟨hnd, hcount, hne⟩ := h
  cases op with
  | want s c p =>
    show DedupInv (stepWant st s c p)
    rw [stepWant]
    by_cases hact : (c, p) ∈ st.active
    · rw [if_pos hact]
      refine ⟨hnd, hcount, ?_⟩
      intro c2 p2 hm
      show assocSessions (wantSessions st s c) c2 ≠ []
      by_cases hc : c2 = c
      · subst hc
        exact List.ne_nil_of_mem (wantSessions_self st s c2)
      · rw [wantSessions_other st s c c2 hc]
        exact hne c2 p2 hm
    · rw [if_neg hact]
      refine ⟨List.nodup_cons.mpr ⟨hact, hnd⟩, ?_, ?_⟩
      · intro c2 p2
        show countWB (st.wire ++ [WireMsg.wantBlockMsg c p]) c2 p2 =
          countCancel (st.wire ++ [WireMsg.wantBlockMsg c p]) c2 p2 +
            (if (c2, p2) ∈ (c, p) :: st.active then 1 else 0)
        rw [countWB_append_wb, countCancel_append_wb]
        have h0 := hcount c2 p2
        by_cases heq : c2 = c ∧ p2 = p
        · obtain ⟨h1, h2⟩ := heq
          subst h1; subst h2
          rw [if_neg hact] at h0
          rw [if_pos ⟨rfl, rfl⟩, if_pos (List.mem_cons_self _ _)]
          omega
        · rw [if_neg heq]
          have hmm : ((c2, p2) ∈ (c, p) :: st.active) ↔
              ((c2, p2) ∈ st.active) := by
            rw [List.mem_cons]
            constructor
            · rintro (he | hm)
              · rw [Prod.mk.injEq] at he
                exact absurd he heq
              · exact hm
            · exact Or.inr
          by_cases hm2 : (c2, p2) ∈ st.active
          · rw [if_pos (hmm.mpr hm2)]
            rw [if_pos hm2] at h0
            omega
          · rw [if_neg (fun hh => hm2 (hmm.mp hh))]
            rw [if_neg hm2] at h0
            omega
      · intro c2 p2 hm
        show assocSessions (wantSessions st s c) c2 ≠ []
        by_cases hc : c2 = c
        · subst hc
          exact List.ne_nil_of_mem (wantSessions_self st s c2)
        · rw [wantSessions_other st s c c2 hc]
          rcases List.mem_cons.mp hm with he | hm2
          · rw [Prod.mk.injEq] at he
            exact absurd he.1 hc
          · exact hne c2 p2 hm2
  | dropWant s c =>
    show DedupInv (stepDrop st s c)
    rw [stepDrop]
    by_cases hl : (assocSessions st.sessions c).erase s = []
    · rw [if_pos hl]
      refine ⟨List.Nodup.filter _ hnd, ?_, ?_⟩
      · intro c2 p2
        show countWB (st.wire ++ (st.active.filter (fun q => q.1 == c)).map
            (fun q => WireMsg.cancelMsg q.1 q.2)) c2 p2 =
          countCancel (st.wire ++ (st.active.filter (fun q => q.1 == c)).map
            (fun q => WireMsg.cancelMsg q.1 q.2)) c2 p2 +
            (if (c2, p2) ∈ st.active.filter (fun q => !(q.1 == c)) then 1 else 0)
        rw [countWB_append_cancels]
        rw [show countCancel (st.wire ++ (st.active.filter (fun q => q.1 == c)).map
            (fun q => WireMsg.cancelMsg q.1 q.2)) c2 p2
          = countCancel st.wire c2 p2 +
              (if c2 = c ∧ (c2, p2) ∈ st.active then 1 else 0) from by
          rw [countCancel, List.count_append,
            count_cancel_map c c2 p2 st.active hnd, countCancel]]
        have h0 := hcount c2 p2
        have hmf : ((c2, p2) ∈ st.active.filter (fun q => !(q.1 == c))) ↔
            ((c2, p2) ∈ st.active ∧ ¬ c2 = c) := by
          rw [List.mem_filter]
          simp
        by_cases hc : c2 = c
        · subst hc
          rw [if_neg (fun hh => (hmf.mp hh).2 rfl)]
          by_cases hm2 : (c2, p2) ∈ st.active
          · rw [if_pos ⟨rfl, hm2⟩]
            rw [if_pos hm2] at h0
            omega
          · rw [if_neg (fun hh => hm2 hh.2)]
            rw [if_neg hm2] at h0
            omega
        · rw [if_neg (fun hh => hc hh.1)]
          by_cases hm2 : (c2, p2) ∈ st.active
          · rw [if_pos (hmf.mpr ⟨hm2, hc⟩)]
            rw [if_pos hm2] at h0
            omega
          · rw [if_neg (fun hh => hm2 (hmf.mp hh).1)]
            rw [if_neg hm2] at h0
            omega
      · intro c2 p2 hm
        show assocSessions (setSessions st.sessions c
            ((assocSessions st.sessions c).erase s)) c2 ≠ []
        have hmf := List.mem_filter.mp hm
        have hc : ¬ c2 = c := by simpa using hmf.2
        rw [assocSessions_setSessions, if_neg hc]
        exact hne c2 p2 hmf.1
    · rw [if_neg hl]
      refine ⟨hnd, hcount, ?_⟩
      intro c2 p2 hm
      show assocSessions (setSessions st.sessions c
          ((assocSessions st.sessions c).erase s)) c2 ≠ []
      rw [assocSessions_setSessions]
      by_cases hc : c2 = c
      · rw [if_pos hc]; exact hl
      · rw [if_neg hc]; exact hne c2 p2 hm

theorem dedupInv_foldl (ops : List DedupOp) :
    ∀ st : DedupState, DedupInv st → DedupInv (ops.foldl dedupStep st) := by
  induction ops with
  | nil => intro st h; exact h
  | cons op ops ih =>
    intro st h
    exact ih (dedupStep st op) (dedupInv_step st op h)

theorem dedupInv_init : DedupInv dedupInit := by
  refine ⟨List.nodup_nil, ?_, ?_⟩
  · intro c p
    simp [countWB, countCancel, dedupInit]
  · intro c p hm
    simp [dedupInit] at hm

theorem dedupInv_run (ops : List DedupOp) : DedupInv (dedupRun ops) :=
  dedupInv_foldl ops dedupInit dedupInv_init

theorem cancel_new_only_last (st : DedupState) (hinv : DedupInv st)
    (op : DedupOp) (c : ContentID) (p : PeerID)
    (hm : WireMsg.cancelMsg c p ∈ (dedupStep st op).wire.drop st.wire.length) :
    ∃ s, op = DedupOp.dropWant s c ∧ assocSessions st.sessions c = [s] := by
  obtain ⟨hnd, hcount, hne⟩ := hinv
  cases op with
  | want s c0 p0 =>
    exfalso
    rw [show dedupStep st (DedupOp.want s c0 p0) = stepWant st s c0 p0 from rfl,
      stepWant] at hm
    by_cases hact : (c0, p0) ∈ st.active
    · rw [if_pos hact] at hm
      rw [show (⟨wantSessions st s c0, st.active, st.wire⟩ : DedupState).wire
          = st.wire from rfl, List.drop_length] at hm
      simp at hm
    · rw [if_neg hact] at hm
      rw [show (⟨wantSessions st s c0, (c0, p0) :: st.active,
            st.wire ++ [WireMsg.wantBlockMsg c0 p0]⟩ : DedupState).wire
          = st.wire ++ [WireMsg.wantBlockMsg c0 p0] from rfl,
        List.drop_left] at hm
      simp at hm
  | dropWant s c0 =>
    rw [show dedupStep st (DedupOp.dropWant s c0) = stepDrop st s c0 from rfl,
      stepDrop] at hm
    by_cases hl : (assocSessions st.sessions c0).erase s = []
    · rw [if_pos hl] at hm
      rw [show (⟨setSessions st.sessions c0 ((assocSessions st.sessions c0).erase s),
            st.active.filter (fun q => !(q.1 == c0)),
            st.wire ++ (st.active.filter (fun q => q.1 == c0)).map
              (fun q => WireMsg.cancelMsg q.1 q.2)⟩ : DedupState).wire
          = st.wire ++ (st.active.filter (fun q => q.1 == c0)).map
              (fun q => WireMsg.cancelMsg q.1 q.2) from rfl,
        List.drop_left] at hm
      simp only [List.mem_map, List.mem_filter] at hm
      obtain ⟨q, ⟨hqa, hqc⟩, hq⟩ := hm
      obtain ⟨qa, qb⟩ := q
      simp only [WireMsg.cancelMsg.injEq] at hq
      obtain ⟨hq1, hq2⟩ := hq
      subst hq1; subst hq2
      have hc0 : c0 = qa := by
        have hh : qa = c0 := by simpa using hqc
        exact hh.symm
      subst hc0
      refine ⟨s, rfl, ?_⟩
      have hnn := hne _ _ hqa
      rcases erase_eq_nil_cases _ s hl with h1 | h1
      · exact absurd h1 hnn
      · exact h1
    · rw [if_neg hl] at hm
      rw [show (⟨setSessions st.sessions c0 ((assocSessions st.sessions c0).erase s),
            st.active, st.wire⟩ : DedupState).wire = st.wire from rfl,
        List.drop_length] at hm
      simp at hm

/-- C7: for every ContentID wanted by overlapping sessions and every candidate
peer, at every reachable state at most one WantBlock for that (ContentID,
peer) pair is outstanding on the wire (WantBlocks sent exceed Cancels sent by
at most one), exactly one is outstanding while the want is live (the pair is
active), and a step appends a Cancel for a ContentID to the wire only when it
is the drop of that ContentID by the last interested session. -/
theorem dedup_spec (ops : List DedupOp) :
    (∀ c p, countWB (dedupRun ops).wire c p ≤
        countCancel (dedupRun ops).wire c p + 1) ∧
    (∀ c p, (c, p) ∈ (dedupRun ops).active →
        countWB (dedupRun ops).wire c p =
          countCancel (dedupRun ops).wire c p + 1) ∧
    (∀ op c p,
        WireMsg.cancelMsg c p ∈
          ((dedupStep (dedupRun ops) op).wire.drop (dedupRun ops).wire.length) →
        ∃ s, op = DedupOp.dropWant s c ∧
          assocSessions (dedupRun ops).sessions c = [s]) := by
  refine ⟨?_, ?_, ?_⟩
  · intro c p
    have h0 := (dedupInv_run ops).2.1 c p
    by_cases hm : (c, p) ∈ (dedupRun ops).active
    · rw [if_pos hm] at h0; omega
    · rw [if_neg hm] at h0; omega
  · intro c p hm
    have h0 := (dedupInv_run ops).2.1 c p
    rw [if_pos hm] at h0
    exact h0
  · intro op c p hm
    exact cancel_new_only_last (dedupRun ops) (dedupInv_run ops) op c p hm

theorem dedup_spec_witness :
    ((5, "A") ∈ (dedupRun [DedupOp.want 1 5 "A", DedupOp.want 2 5 "A",
          DedupOp.dropWant 1 5]).active ∧
      countWB (dedupRun [DedupOp.want 1 5 "A", DedupOp.want 2 5 "A",
          DedupOp.dropWant 1 5]).wire 5 "A" =
        countCancel (dedupRun [DedupOp.want 1 5 "A", DedupOp.want 2 5 "A",
          DedupOp.dropWant 1 5]).wire 5 "A" + 1) ∧
    (WireMsg.cancelMsg 5 "A" ∈
        ((dedupStep (dedupRun [DedupOp.want 1 5 "A", DedupOp.want 2 5 "A",
              DedupOp.dropWant 1 5]) (DedupOp.dropWant 2 5)).wire.drop
          (dedupRun [DedupOp.want 1 5 "A", DedupOp.want 2 5 "A",
            DedupOp.dropWant 1 5]).wire.length) ∧
      ∃ s2, DedupOp.dropWant 2 5 = DedupOp.dropWant s2 5 ∧
        assocSessions (dedupRun [DedupOp.want 1 5 "A", DedupOp.want 2 5 "A",
          DedupOp.dropWant 1 5]).sessions 5 = [s2]) :=
  ⟨⟨by decide, (dedup_spec [DedupOp.want 1 5 "A", DedupOp.want 2 5 "A",
      DedupOp.dropWant 1 5]).2.1 5 "A" (by decide)⟩,
    ⟨by decide, (dedup_spec [DedupOp.want 1 5 "A", DedupOp.want 2 5 "A",
      DedupOp.dropWant 1 5]).2.2 (DedupOp.dropWant 2 5) 5 "A" (by decide)⟩⟩
